import Mathlib

/-!
Verification development for the Gluten native bridge.

Part 1 embeds `WriteBufferFromJavaOutputStream` (cpp-ch/local-engine/Shuffle):
the loop of `nextImpl` that stages the buffered bytes in a Java byte array and
hands them to the host output stream, and `finalizeImpl`. The framed block
stream around it (frame writer, read adapter, `ShuffleReader::read`), of which
the sources only hold the declarations, is modelled from the specification.

Part 2 embeds the type-string utilities of `cpp/velox/substrait/TypeUtils.cc`.

Conventions of the embedding
* `size_t` values are naturals below `2 ^ 64`; subtraction and addition wrap.
* `jint` values are integers; `static_cast<jint>` keeps the low 32 bits.
* `int` counters that start at 0 and only grow are naturals up to `2 ^ 31 - 1`;
  an increment beyond that is reported as the failure `signed_overflow`.
* a `while` loop or a recursion takes a fuel argument that bounds the number of
  iterations or the depth; running out of fuel is reported as its own outcome.
-/

namespace local_engine

/-! ## The host side -/

/-- Error kinds of the bridge (section 7 of the specification). -/
inductive BridgeError
  | HostStreamError
  | CorruptStreamError
  | StaleHostReferenceError
  deriving DecidableEq, Repr

/-- One foreign call on the host output stream. `receiverLive` records whether
the referent of the weak reference used as receiver still existed when the call
was issued. A write carries the byte array, the offset and the length. -/
inductive HostCall
  | write (receiverLive : Bool) (b : List Nat) (off : Int) (len : Int)
  | flush (receiverLive : Bool)
  deriving DecidableEq, Repr

/-- Largest `jint`. -/
def JINT_MAX : Nat := 2 ^ 31 - 1

/-- A Java `byte[]`. Its length is a `jsize`, that is a `jint`, so it has at
most `2 ^ 31 - 1` elements. -/
structure JByteArray where
  data : List Nat
  length_le : data.length ≤ JINT_MAX
  deriving DecidableEq, Repr

/-- The part of the Java heap the adapter touches.
* `output_stream`: whether the referent of the weak reference `output_stream`
  still exists;
* `buffer`: the byte array behind the weak reference `buffer`, `none` once the
  array has been reclaimed;
* `calls`: the foreign calls issued so far, oldest first, each with a flag
  telling whether a Java exception was pending when the call came back. -/
structure Jvm where
  output_stream : Bool
  buffer : Option JByteArray
  calls : List (HostCall × Bool)
  deriving DecidableEq, Repr

/-- The host: given the calls made so far and the next call, tells whether the
call raises a Java exception. -/
abbrev Host := List (HostCall × Bool) → HostCall → Bool

/-- How a native method ended. -/
inductive Outcome
  | returned
  | threw (e : BridgeError)
  | outOfFuel
  deriving DecidableEq, Repr

/-! ## Machine arithmetic -/

/-- The modulus of `size_t`. -/
def SIZE_MOD : Nat := 2 ^ 64

/-- `static_cast<jint>` of a `size_t`: the low 32 bits, read as two's complement. -/
def toJint (x : Nat) : Int :=
  if x % 2 ^ 32 < 2 ^ 31 then ((x % 2 ^ 32 : Nat) : Int) else ((x % 2 ^ 32 : Nat) : Int) - 2 ^ 32

/-- Subtraction of two `size_t` values. -/
def subSize (a b : Nat) : Nat := (a % SIZE_MOD + (SIZE_MOD - b % SIZE_MOD)) % SIZE_MOD

/-- The statement `bytes_write += copy_num`: the `jint` is converted to `size_t`
(sign extension) and the sum wraps. -/
def addJint (a : Nat) (i : Int) : Nat := (((a : Int) + i) % (SIZE_MOD : Int)).toNat

/-! ## The adapter -/

/-- State of a `WriteBufferFromJavaOutputStream`.
* `working_buffer`: the bytes from `working_buffer.begin()` up to `pos`, so
  that `offset()` is its length;
* `buffer_size`: the member set by the constructor from `customize_buffer_size`.
Both are `size_t` quantities. -/
structure WriteBufferFromJavaOutputStream where
  working_buffer : List Nat
  buffer_size : Nat
  offset_lt : working_buffer.length < SIZE_MOD
  buffer_size_lt : buffer_size < SIZE_MOD

namespace WriteBufferFromJavaOutputStream

/-- The member function `offset()`: number of buffered bytes. -/
def offset (w : WriteBufferFromJavaOutputStream) : Nat := w.working_buffer.length

end WriteBufferFromJavaOutputStream

/-- JNI `SetByteArrayRegion(array, start, len, src)`: copies `len` bytes of `src`
over the array from index `start`. The result is `none` (an exception is left
pending and the array is untouched) when the array has been reclaimed or the
region is not inside the array. -/
def SetByteArrayRegion (array : Option JByteArray) (start len : Int) (src : List Nat) :
    Option JByteArray :=
  match array with
  | none => none
  | some a =>
    if h : 0 ≤ start ∧ 0 ≤ len ∧ start + len ≤ (a.data.length : Int) then
      some (JByteArray.mk
        (a.data.take start.toNat ++ src.take len.toNat ++ a.data.drop (start.toNat + len.toNat))
        (by
          have hl := a.length_le
          simp only [List.length_append, List.length_take, List.length_drop]
          omega))
    else none

/-- Modelled from the spec: `safeCallVoidMethod` (jni_common.h) is not part of
the sources. Per section 4.4 and 7 a foreign call failure is surfaced as
`HostStreamError`: the call is issued, and when a Java exception is pending
afterwards (`pending` tells whether one was already pending before the call)
the helper throws. The call is appended to the record of foreign calls. -/
def safeCallVoidMethod (host : Host) (pending : Bool) (call : HostCall) (jvm : Jvm) :
    Option BridgeError × Jvm :=
  let raised := pending || host jvm.calls call
  (if raised then some BridgeError.HostStreamError else none,
    Jvm.mk jvm.output_stream jvm.buffer (jvm.calls ++ [(call, raised)]))

/-- The loop of `nextImpl` (lines 15 to 21), started with the given value of
`bytes_write`. `fuel` bounds the number of iterations. -/
def nextImplLoop (host : Host) (w : WriteBufferFromJavaOutputStream) :
    Nat → Nat → Jvm → Outcome × Jvm
  | fuel, bytes_write, jvm =>
    if 0 < subSize w.offset bytes_write then
      match fuel with
      | 0 => (Outcome.outOfFuel, jvm)
      | fuel + 1 =>
        let copy_num : Int := toJint (min (subSize w.offset bytes_write) w.buffer_size)
        let staged := SetByteArrayRegion jvm.buffer 0 copy_num (w.working_buffer.drop bytes_write)
        let jvm1 : Jvm := Jvm.mk jvm.output_stream (staged <|> jvm.buffer) jvm.calls
        match safeCallVoidMethod host (!staged.isSome)
            (HostCall.write jvm1.output_stream ((jvm1.buffer.map JByteArray.data).getD []) 0
              copy_num) jvm1 with
        | (some e, jvm2) => (Outcome.threw e, jvm2)
        | (none, jvm2) => nextImplLoop host w fuel (addJint bytes_write copy_num) jvm2
    else (Outcome.returned, jvm)

/-- The member function `nextImpl` (lines 11 to 23). -/
def nextImpl (host : Host) (w : WriteBufferFromJavaOutputStream) (fuel : Nat) (jvm : Jvm) :
    Outcome × Jvm :=
  nextImplLoop host w fuel 0 jvm

/-- Modelled from the spec: `WriteBuffer::next` of the base class is not part of
the sources. Per section 4.4 it drains the buffered bytes through the delivery
loop: nothing is done for an empty buffer, otherwise `nextImpl` runs and the
buffer is empty afterwards, also when `nextImpl` threw. -/
def next (host : Host) (w : WriteBufferFromJavaOutputStream) (fuel : Nat) (jvm : Jvm) :
    Outcome × WriteBufferFromJavaOutputStream × Jvm :=
  if w.offset = 0 then (Outcome.returned, w, jvm)
  else
    match nextImpl host w fuel jvm with
    | (Outcome.outOfFuel, jvm1) => (Outcome.outOfFuel, w, jvm1)
    | (out, jvm1) =>
      (out, WriteBufferFromJavaOutputStream.mk [] w.buffer_size (by decide) w.buffer_size_lt, jvm1)

/-- The member function `finalizeImpl` (lines 32 to 38): `next()`, then one flush
call on the output stream. -/
def finalizeImpl (host : Host) (w : WriteBufferFromJavaOutputStream) (fuel : Nat) (jvm : Jvm) :
    Outcome × WriteBufferFromJavaOutputStream × Jvm :=
  match next host w fuel jvm with
  | (Outcome.returned, w1, jvm1) =>
    match safeCallVoidMethod host false (HostCall.flush jvm1.output_stream) jvm1 with
    | (some e, jvm2) => (Outcome.threw e, w1, jvm2)
    | (none, jvm2) => (Outcome.returned, w1, jvm2)
  | r => r

/-! ## Observations on the record of foreign calls -/

/-- The bytes a call hands to the host: for a write, `len` bytes of the array
from index `off`; nothing for a flush. -/
def HostCall.chunk : HostCall → List Nat
  | HostCall.write _ b off len => (b.drop off.toNat).take len.toNat
  | HostCall.flush _ => []

/-- Whether a call is a write. -/
def HostCall.isWrite : HostCall → Bool
  | HostCall.write _ _ _ _ => true
  | HostCall.flush _ => false

/-- The byte stream passed to the host: the chunks of the calls, in call order. -/
def passed (calls : List (HostCall × Bool)) : List Nat :=
  (calls.map fun c => c.1.chunk).flatten

/-- The byte stream the host accepted: the chunks of the calls that came back
without a pending exception, in call order. -/
def delivered (calls : List (HostCall × Bool)) : List Nat :=
  passed (calls.filter fun c => !c.2)

/-- The host on which no call ever raises. -/
def faultFree : Host := fun _ _ => false

/-- The offset and length arguments of a write call. -/
def HostCall.offLen : HostCall → Int × Int
  | HostCall.write _ _ off len => (off, len)
  | HostCall.flush _ => (0, 0)

/-- Ceiling of `n / c`. -/
def ceilDiv (n c : Nat) : Nat := (n + c - 1) / c

/-- Shape of the calls of a fault-free drain of `remaining` bytes with capacity
`c`: the `i`-th call is a write (first component) with offset 0 and length
`min (remaining - i * c) c` (second component) that came back without a pending
exception (third component). -/
def expectedCalls (remaining c : Nat) : List (Bool × (Int × Int) × Bool) :=
  (List.range (ceilDiv remaining c)).map fun i =>
    (true, ((0 : Int), ((min (remaining - i * c) c : Nat) : Int)), false)

/-- The host on which every call raises. -/
def alwaysFaulty : Host := fun _ _ => true

/-! ## Concrete adapters used to instantiate the theorems -/

/-- Five buffered bytes, transfer-chunk capacity 2. -/
def writerFive : WriteBufferFromJavaOutputStream :=
  WriteBufferFromJavaOutputStream.mk [1, 2, 3, 4, 5] 2 (by decide) (by decide)

/-- The same five buffered bytes, transfer-chunk capacity 1. -/
def writerFiveByOne : WriteBufferFromJavaOutputStream :=
  WriteBufferFromJavaOutputStream.mk [1, 2, 3, 4, 5] 1 (by decide) (by decide)

/-- One buffered byte, transfer-chunk capacity 0. -/
def writerZeroCapacity : WriteBufferFromJavaOutputStream :=
  WriteBufferFromJavaOutputStream.mk [7] 0 (by decide) (by decide)

/-- A buffer of `2 ^ 31` bytes with transfer-chunk capacity `2 ^ 31`, one more
than the largest `jint`. -/
def writerBeyondJint : WriteBufferFromJavaOutputStream :=
  WriteBufferFromJavaOutputStream.mk (List.replicate (2 ^ 31) 0) (2 ^ 31)
    (by rw [List.length_replicate]; decide) (by decide)

/-- A Java array of two bytes. -/
def chunkTwo : JByteArray := JByteArray.mk [0, 0] (by decide)

/-- A heap with a live output stream and a live transfer chunk of two bytes. -/
def jvmLive : Jvm := Jvm.mk true (some chunkTwo) []

/-- A host that raises on the call number `k` (counted from 1) and on no other. -/
def failsAt (k : Nat) : Host := fun before _ => before.length + 1 == k

/-! ## The framed block stream

The frame writer, the read adapter and the body of `ShuffleReader::read` are not
part of the sources (`ShuffleReader.h` only declares them). They are modelled
from the specification, sections 3, 4.1, 4.3, 4.4 and 6. A byte is a natural
number, as in the write adapter above. -/

/-- Modelled from the spec: a `Block` as the wire sees it (sections 3 and 8): row
count, column count and payload bytes. -/
structure Block where
  rows : Nat
  cols : Nat
  payload : List Nat
  deriving DecidableEq, Repr

/-- Modelled from the spec: a `FrameHeader` (section 6), as the tagged variant of
section 9: the header of a data frame with row count, column count and payload
length, or the distinguished end-of-stream header. -/
inductive FrameHeader
  | dataFrame (rows cols payloadLength : Nat)
  | endOfStream
  deriving DecidableEq, Repr

/-- Modelled from the spec: the byte layout of a frame header, which section 6
leaves open. `encode` writes a header; `complete` recognises the text of a whole
header, so that a reader can take bytes one by one until the header is
complete. -/
structure HeaderCodec where
  encode : FrameHeader → List Nat
  complete : List Nat → Option FrameHeader

/-- Modelled from the spec: the frame format is self-describing (section 1 and
9): a whole header text is recognised as its header, and no shorter initial
segment of it is recognised as a header. -/
def HeaderCodec.SelfDescribing (codec : HeaderCodec) : Prop :=
  (∀ h, codec.complete (codec.encode h) = some h) ∧
  (∀ h front back, codec.encode h = front ++ back → back ≠ [] → codec.complete front = none)

/-- Modelled from the spec: the frame of one block (section 6): its header, then
its payload bytes. -/
def encodeBlock (codec : HeaderCodec) (b : Block) : List Nat :=
  codec.encode (FrameHeader.dataFrame b.rows b.cols b.payload.length) ++ b.payload

/-- Modelled from the spec: the wire format (section 6): the frames of the blocks
in order, terminated by the end-of-stream header. -/
def encodeStream (codec : HeaderCodec) (blocks : List Block) : List Nat :=
  (blocks.map (encodeBlock codec)).flatten ++ codec.encode FrameHeader.endOfStream

/-- Modelled from the spec: the write adapter together with the fixed capacity
of its native buffer (section 3, `NativeBuffer`). -/
structure BufferedWriter where
  adapter : WriteBufferFromJavaOutputStream
  capacity : Nat
  capacity_lt : capacity < SIZE_MOD
  offset_le : adapter.offset ≤ capacity

/-- The adapter after one more byte has been put into a buffer that is not
full. -/
def BufferedWriter.store (bw : BufferedWriter) (byte : Nat)
    (h : bw.adapter.offset < bw.capacity) : BufferedWriter :=
  BufferedWriter.mk
    (WriteBufferFromJavaOutputStream.mk (bw.adapter.working_buffer ++ [byte])
      bw.adapter.buffer_size
      (by
        have h1 := bw.capacity_lt
        have h2 : bw.adapter.working_buffer.length < bw.capacity := h
        simp only [List.length_append, List.length_cons, List.length_nil]
        omega)
      bw.adapter.buffer_size_lt)
    bw.capacity bw.capacity_lt
    (by
      have h2 : bw.adapter.working_buffer.length < bw.capacity := h
      show (bw.adapter.working_buffer ++ [byte]).length ≤ bw.capacity
      simp only [List.length_append, List.length_cons, List.length_nil]
      omega)

/-- Modelled from the spec: `write` of one byte (section 4.4): the byte is
appended to the internal buffer; a full buffer is drained first by `next`. A
buffer that is still full after the drain (capacity 0) can never take the byte:
the write does not return. -/
def writeByte (host : Host) (fuel : Nat) (byte : Nat) (bw : BufferedWriter) (jvm : Jvm) :
    Outcome × BufferedWriter × Jvm :=
  if h : bw.adapter.offset < bw.capacity then (Outcome.returned, bw.store byte h, jvm)
  else
    match next host bw.adapter fuel jvm with
    | (Outcome.returned, w1, jvm1) =>
      if h1 : w1.offset < bw.capacity then
        (Outcome.returned,
          BufferedWriter.store (BufferedWriter.mk w1 bw.capacity bw.capacity_lt (Nat.le_of_lt h1))
            byte h1, jvm1)
      else (Outcome.outOfFuel, bw, jvm1)
    | (out, _, jvm1) => (out, bw, jvm1)

/-- Modelled from the spec: `write(bytes)` (section 4.4), byte after byte; the
first failure ends it. -/
def writeBytes (host : Host) (fuel : Nat) :
    List Nat → BufferedWriter → Jvm → Outcome × BufferedWriter × Jvm
  | [], bw, jvm => (Outcome.returned, bw, jvm)
  | byte :: more, bw, jvm =>
    match writeByte host fuel byte bw jvm with
    | (Outcome.returned, bw1, jvm1) => writeBytes host fuel more bw1 jvm1
    | r => r

/-- Modelled from the spec: the write path of section 2: the frame writer
serialises the blocks and writes them through the write adapter, which is then
finalized (`finalizeImpl`, from the sources). -/
def sendBlocks (host : Host) (fuel : Nat) (codec : HeaderCodec) (blocks : List Block)
    (bw : BufferedWriter) (jvm : Jvm) : Outcome × Jvm :=
  match writeBytes host fuel (encodeStream codec blocks) bw jvm with
  | (Outcome.returned, bw1, jvm1) =>
    ((finalizeImpl host bw1.adapter fuel jvm1).1, (finalizeImpl host bw1.adapter fuel jvm1).2.2)
  | (out, _, jvm1) => (out, jvm1)

/-- Modelled from the spec: a `HostByteSource` (section 3): the bytes it has not
handed out yet, how many bytes it is willing to return at each call (`grant`,
indexed by the number of the call) and the number of calls made so far. -/
structure HostSource where
  remaining : List Nat
  grant : Nat → Nat
  callsMade : Nat

/-- Modelled from the spec: `hostRead(buffer, maxLength) -> bytesRead` (section
6) on a host that raises no fault: at least one byte and at most `maxLength`
bytes while bytes remain, possibly fewer than requested; no byte at the end of
the stream. -/
def hostRead (src : HostSource) (maxLength : Nat) : List Nat × HostSource :=
  (src.remaining.take (min (max 1 (src.grant src.callsMade)) maxLength),
    HostSource.mk (src.remaining.drop (min (max 1 (src.grant src.callsMade)) maxLength))
      src.grant (src.callsMade + 1))

/-- Modelled from the spec: the read adapter of section 4.1, declared in
`ShuffleReader.h` (lines 29 to 40) with the members `java_in` and `buffer_size`.
`available` holds the bytes of the native buffer not consumed yet, `finished`
tells that the end of the stream has been signalled. -/
structure ReadBufferFromJavaInputStream where
  java_in : HostSource
  buffer_size : Nat
  available : List Nat
  finished : Bool

/-- Modelled from the spec: the refill `fill() -> bytes_available` of section
4.1 (the declared member `nextImpl`): one foreign call requesting up to
`buffer_size` bytes; no byte signals the end of the stream, after which no call
is made again. The result tells whether bytes are available. -/
def ReadBufferFromJavaInputStream.fill (r : ReadBufferFromJavaInputStream) :
    Bool × ReadBufferFromJavaInputStream :=
  if r.finished then (false, r)
  else
    match hostRead r.java_in r.buffer_size with
    | ([], src1) => (false, ReadBufferFromJavaInputStream.mk src1 r.buffer_size [] true)
    | (b :: bs, src1) =>
      (true, ReadBufferFromJavaInputStream.mk src1 r.buffer_size (b :: bs) false)

/-- Modelled from the spec: taking one byte from the pull buffer; an exhausted
buffer is refilled first ("buffer empty, refill"). `none` is the end of the
stream. -/
def ReadBufferFromJavaInputStream.readByte (r : ReadBufferFromJavaInputStream) :
    Option Nat × ReadBufferFromJavaInputStream :=
  match r.available with
  | b :: rest => (some b, ReadBufferFromJavaInputStream.mk r.java_in r.buffer_size rest r.finished)
  | [] =>
    match r.fill.2.available with
    | b :: rest =>
      (some b, ReadBufferFromJavaInputStream.mk r.fill.2.java_in r.buffer_size rest
        r.fill.2.finished)
    | [] => (none, r.fill.2)

/-- Modelled from the spec: step (1) of `readNext` (section 4.3): bytes are taken
one by one until the header is complete, without reading past it. The stream
ending first is a corruption. `fuel` bounds the number of bytes taken; `none`
reports that it ran out. -/
def readFrameHeader (codec : HeaderCodec) :
    Nat → List Nat → ReadBufferFromJavaInputStream →
      Option (Except BridgeError FrameHeader) × ReadBufferFromJavaInputStream
  | fuel, text, r =>
    match codec.complete text with
    | some h => (some (Except.ok h), r)
    | none =>
      match fuel with
      | 0 => (none, r)
      | fuel + 1 =>
        match r.readByte with
        | (none, r1) => (some (Except.error BridgeError.CorruptStreamError), r1)
        | (some b, r1) => readFrameHeader codec fuel (text ++ [b]) r1

/-- Modelled from the spec: step (3) of `readNext`: exactly `payloadLength` bytes
are read; fewer available before the end of the stream is a corruption. -/
def readPayload :
    Nat → ReadBufferFromJavaInputStream →
      Except BridgeError (List Nat) × ReadBufferFromJavaInputStream
  | 0, r => (Except.ok [], r)
  | n + 1, r =>
    match r.readByte with
    | (none, r1) => (Except.error BridgeError.CorruptStreamError, r1)
    | (some b, r1) =>
      match readPayload n r1 with
      | (Except.ok bs, r2) => (Except.ok (b :: bs), r2)
      | (Except.error e, r2) => (Except.error e, r2)

/-- Modelled from the spec: the framed block reader, declared in `ShuffleReader.h`
(lines 12 to 26) with the members `in` and `header`: the input buffer, the
schema (column count) established by the first frame, and whether the
end-of-stream header has been read. -/
structure ShuffleReader where
  input : ReadBufferFromJavaInputStream
  header : Option Nat
  exhausted : Bool

/-- What one call of `ShuffleReader::read` produces. -/
inductive ReadResult
  | block (b : Block)
  | endMarker
  | failed (e : BridgeError)
  | outOfFuel
  deriving DecidableEq, Repr

/-- Modelled from the spec: `readNext() -> Block | end-marker` of section 4.3
(the declared member `ShuffleReader::read`). An exhausted reader returns the end
marker. Otherwise a header is read; the end-of-stream header exhausts the
reader; a data frame whose column count differs from the schema, or that has
rows but no column (section 9), is a corruption; else the payload is read and
the block returned, the first one establishing the schema. -/
def ShuffleReader.read (codec : HeaderCodec) (fuel : Nat) (s : ShuffleReader) :
    ReadResult × ShuffleReader :=
  if s.exhausted then (ReadResult.endMarker, s)
  else
    match readFrameHeader codec fuel [] s.input with
    | (none, r1) => (ReadResult.outOfFuel, ShuffleReader.mk r1 s.header s.exhausted)
    | (some (Except.error e), r1) => (ReadResult.failed e, ShuffleReader.mk r1 s.header s.exhausted)
    | (some (Except.ok FrameHeader.endOfStream), r1) =>
      (ReadResult.endMarker, ShuffleReader.mk r1 s.header true)
    | (some (Except.ok (FrameHeader.dataFrame rows cols payloadLength)), r1) =>
      if s.header.isSome ∧ s.header ≠ some cols then
        (ReadResult.failed BridgeError.CorruptStreamError, ShuffleReader.mk r1 s.header s.exhausted)
      else if cols = 0 ∧ rows ≠ 0 then
        (ReadResult.failed BridgeError.CorruptStreamError, ShuffleReader.mk r1 s.header s.exhausted)
      else
        match readPayload payloadLength r1 with
        | (Except.error e, r2) => (ReadResult.failed e, ShuffleReader.mk r2 s.header s.exhausted)
        | (Except.ok payload, r2) =>
          (ReadResult.block (Block.mk rows cols payload), ShuffleReader.mk r2 (some cols) false)

/-- The results of `count` successive calls of `ShuffleReader::read`. -/
def readMany (codec : HeaderCodec) (fuel : Nat) : Nat → ShuffleReader → List ReadResult
  | 0, _ => []
  | count + 1, s => (s.read codec fuel).1 :: readMany codec fuel count (s.read codec fuel).2

/-- Modelled from the spec: the read path of section 2 on the bytes `wire` held
by the host source: a fresh read adapter of the given buffer capacity and a
fresh reader on it. -/
def receiverOn (wire : List Nat) (grant : Nat → Nat) (buffer_size : Nat) : ShuffleReader :=
  ShuffleReader.mk
    (ReadBufferFromJavaInputStream.mk (HostSource.mk wire grant 0) buffer_size [] false)
    none false

/-- A header layout used to instantiate the theorems: the end-of-stream header
is the byte 0, a data frame header is the byte 1 followed by the three fields. -/
def plainCodec : HeaderCodec :=
  HeaderCodec.mk
    (fun h =>
      match h with
      | FrameHeader.dataFrame rows cols payloadLength => [1, rows, cols, payloadLength]
      | FrameHeader.endOfStream => [0])
    (fun text =>
      match text with
      | [0] => some FrameHeader.endOfStream
      | [1, rows, cols, payloadLength] => some (FrameHeader.dataFrame rows cols payloadLength)
      | _ => none)

/-- The three blocks of the example scenario of section 8, with two columns. -/
def exampleBlocks : List Block :=
  [Block.mk 3 2 [11, 12, 13, 14, 15, 16], Block.mk 0 2 [], Block.mk 5 2 [21, 22, 23, 24, 25]]

/-- Two blocks with different column counts: one column, then two. -/
def mixedColumnBlocks : List Block := [Block.mk 1 1 [5], Block.mk 1 2 [6]]

/-- One block with a row but no column. -/
def rowsWithoutColumns : List Block := [Block.mk 1 0 []]

/-- A fresh write adapter with transfer-chunk capacity 4 and a native buffer of
16 bytes. -/
def exampleWriter : BufferedWriter :=
  BufferedWriter.mk (WriteBufferFromJavaOutputStream.mk [] 4 (by decide) (by decide)) 16
    (by decide) (by decide)

/-- A heap with a live output stream and a live transfer chunk of four bytes. -/
def exampleJvm : Jvm := Jvm.mk true (some (JByteArray.mk [0, 0, 0, 0] (by decide))) []

/-! ## Invariants used in the proofs about the framed stream -/

/-- What a fault-free run of the write path keeps true: the transfer-chunk
capacity is `c ≥ 1`, the transfer chunk is live and holds `c` bytes, the native
buffer has room for a byte and `fuel` suffices to drain a full buffer. -/
def WriterReady (bw : BufferedWriter) (jvm : Jvm) (c fuel : Nat) : Prop :=
  bw.adapter.buffer_size = c ∧ 1 ≤ c ∧ 1 ≤ bw.capacity ∧ bw.capacity ≤ fuel ∧
  ∃ a : JByteArray, jvm.buffer = some a ∧ c ≤ a.data.length

/-- The bytes a read adapter has still to hand to its reader: those in its
buffer, then those the host source holds. -/
def ReadBufferFromJavaInputStream.pending (r : ReadBufferFromJavaInputStream) : List Nat :=
  r.available ++ r.java_in.remaining

/-- What the read adapter keeps true: its buffer has room for a byte, and once
the end of the stream has been signalled nothing is left. -/
def ReadBufferFromJavaInputStream.Sound (r : ReadBufferFromJavaInputStream) : Prop :=
  1 ≤ r.buffer_size ∧ (r.finished = true → r.available = [] ∧ r.java_in.remaining = [])

end local_engine

namespace gluten

/-! ## Part 2: `TypeUtils.cc`

Strings are lists of characters. Positions and lengths are `size_t` values;
`npos` is the largest of them and arithmetic on positions wraps. The `int`
counters of `getTypesFromCompoundName` are naturals that may not go beyond
`2 ^ 31 - 1`. -/

/-- What a function of `TypeUtils.cc` can throw: a failed `VELOX_CHECK`,
`VELOX_NYI`, a Velox user error raised inside the library, and the exceptions of
the standard library. The last case, `signed_overflow`, is not an exception: it
reports that an `int` counter of the source would go beyond `2 ^ 31 - 1`, where
the source has no defined behaviour. -/
inductive Failure
  | veloxCheck
  | veloxNyi
  | veloxUserError
  | runtime_error
  | invalid_argument
  | out_of_range
  | signed_overflow
  deriving DecidableEq, Repr

/-- Velox types, as far as `TypeUtils.cc` builds them. The factories `DECIMAL`,
`ARRAY`, `MAP`, `ROW` are kept symbolic: the value records the arguments of the
call. -/
inductive TypePtr
  | BOOLEAN
  | TINYINT
  | SMALLINT
  | INTEGER
  | BIGINT
  | REAL
  | DOUBLE
  | VARCHAR
  | VARBINARY
  | TIMESTAMP
  | DATE
  | UNKNOWN
  | DECIMAL (precision scale : Int)
  | ARRAY (elementType : TypePtr)
  | MAP (keyType valueType : TypePtr)
  | ROW (names : List (List Char)) (types : List TypePtr)

/-- The value `std::string::npos`. -/
def npos : Nat := 2 ^ 64 - 1

/-- Addition of two `size_t` values. -/
def sizeAdd (a b : Nat) : Nat := (a + b) % 2 ^ 64

/-- Subtraction of two `size_t` values. -/
def sizeSub (a b : Nat) : Nat := (a % 2 ^ 64 + (2 ^ 64 - b % 2 ^ 64)) % 2 ^ 64

/-- Whether `pat` is an initial segment of the second list. -/
def startsWith : List Char → List Char → Bool
  | [], _ => true
  | _ :: _, [] => false
  | p :: ps, c :: cs => p == c && startsWith ps cs

/-- Search of `find`: `i` is the position of the head of the list. -/
def findAux (pat : List Char) : List Char → Nat → Nat
  | [], i => if pat.isEmpty then i else npos
  | c :: cs, i => if startsWith pat (c :: cs) then i else findAux pat cs (i + 1)

/-- The call `s.find(pat)`: position of the first occurrence of `pat`, or `npos`. -/
def find (s pat : List Char) : Nat := findAux pat s 0

/-- The call `s.find_first_of(c)` for one character. -/
def find_first_of (s : List Char) (c : Char) : Nat := find s [c]

/-- Search of `find_last_of`: `i` is the position of the head of the list, `best`
the last position seen so far. -/
def findLastAux (c : Char) : List Char → Nat → Nat → Nat
  | [], _, best => best
  | x :: xs, i, best => findLastAux c xs (i + 1) (if x = c then i else best)

/-- The call `s.find_last_of(c)` for one character: the last position of `c`, or
`npos`. -/
def find_last_of (s : List Char) (c : Char) : Nat := findLastAux c s 0 npos

/-- The call `s.rfind(c)` for a pattern of one character. -/
def rfind (s : List Char) (c : Char) : Nat := find_last_of s c

/-- The call `s.substr(pos, n)`: throws `std::out_of_range` when `pos` is beyond
the end, otherwise at most `n` characters from `pos`. -/
def substr (s : List Char) (pos n : Nat) : Except Failure (List Char) :=
  if s.length < pos then Except.error Failure.out_of_range
  else Except.ok ((s.drop pos).take n)

/-- Largest `int`. -/
def INT_MAX : Nat := 2 ^ 31 - 1

/-- Conversion of an `int` to `size_t`. -/
def intToSize (i : Int) : Nat := (i % (2 ^ 64 : Int)).toNat

/-- First loop of `getTypesFromCompoundName` (lines 35 to 45): the positions of
the commas at which the two bracket counters are equal. `index` is the position
of the head of the list. The loop counter and the two bracket counters are `int`
in the source; they start at 0 and only grow, so they are naturals here, and an
increment that would go beyond `INT_MAX` is reported as `signed_overflow`. -/
def angleBracketNumEqualPos : List Char → Nat → Nat → Nat → Except Failure (List Nat)
  | [], _, _, _ => Except.ok []
  | ch :: rest, index, leftAngleBracketNum, rightAngleBracketNum =>
    if (ch = '<' ∧ INT_MAX ≤ leftAngleBracketNum) ∨ (ch = '>' ∧ INT_MAX ≤ rightAngleBracketNum)
        ∨ INT_MAX ≤ index then
      Except.error Failure.signed_overflow
    else
      let l := if ch = '<' then leftAngleBracketNum + 1 else leftAngleBracketNum
      let r := if ch = '>' then rightAngleBracketNum + 1 else rightAngleBracketNum
      match angleBracketNumEqualPos rest (index + 1) l r with
      | Except.error e => Except.error e
      | Except.ok positions =>
        if ch = ',' ∧ r = l then Except.ok (index :: positions) else Except.ok positions

/-- Second loop of `getTypesFromCompoundName` (lines 46 to 51), followed by the
last `emplace_back`. `startPos` and `delimeterPos` are `int` in the source: the
difference `delimeterPos - startPos` is taken in `int` and converted to `size_t`
for `substr`, and `startPos = delimeterPos + 1` beyond `INT_MAX` is reported as
`signed_overflow`. -/
def splitTypes (typesName : List Char) : List Nat → Nat → Except Failure (List (List Char))
  | [], startPos => Except.ok [typesName.drop startPos]
  | delimeterPos :: more, startPos =>
    match substr typesName startPos (intToSize ((delimeterPos : Int) - (startPos : Int))) with
    | Except.error e => Except.error e
    | Except.ok t =>
      if INT_MAX ≤ delimeterPos then Except.error Failure.signed_overflow
      else
        match splitTypes typesName more (delimeterPos + 1) with
        | Except.error e => Except.error e
        | Except.ok ts => Except.ok (t :: ts)

/-- The function `getTypesFromCompoundName` (lines 23 to 53). -/
def getTypesFromCompoundName (compoundName : List Char) : Except Failure (List (List Char)) :=
  let leftAngleBracketPos := find compoundName ['<']
  let rightAngleBracketPos := rfind compoundName '>'
  match substr compoundName (sizeAdd leftAngleBracketPos 1)
      (sizeSub (sizeSub rightAngleBracketPos leftAngleBracketPos) 1) with
  | Except.error e => Except.error e
  | Except.ok typesName =>
    match angleBracketNumEqualPos typesName 0 0 0 with
    | Except.error e => Except.error e
    | Except.ok positions => splitTypes typesName positions 0

/-- The C `isspace` in the default locale. -/
def isSpace (c : Char) : Bool :=
  c.toNat = 32 || (9 ≤ c.toNat && c.toNat ≤ 13)

/-- The C `isdigit`. -/
def isDigit (c : Char) : Bool :=
  48 ≤ c.toNat && c.toNat ≤ 57

/-- Value of a run of decimal digits. -/
def digitsValue (ds : List Char) : Nat :=
  ds.foldl (fun acc d => 10 * acc + (d.toNat - 48)) 0

/-- The call `std::stoi(s)`: leading white space is skipped, an optional sign and
the longest run of digits are read; `std::invalid_argument` when there is no
digit, `std::out_of_range` when the value is not an `int`. -/
def stoi (s : List Char) : Except Failure Int :=
  let s1 := s.dropWhile isSpace
  let signed : Bool × List Char :=
    match s1 with
    | [] => (false, [])
    | c :: r => if c = '-' then (true, r) else if c = '+' then (false, r) else (false, c :: r)
  let ds := signed.2.takeWhile isDigit
  if ds.isEmpty then Except.error Failure.invalid_argument
  else
    let v : Int := if signed.1 then -(digitsValue ds : Int) else (digitsValue ds : Int)
    if v < -(2 ^ 31) ∨ 2 ^ 31 - 1 < v then Except.error Failure.out_of_range
    else Except.ok v

/-- The function `getDecimalType` (lines 202 to 210). -/
def getDecimalType (decimalType : List Char) : Except Failure TypePtr :=
  let precisionStart := find_first_of decimalType '<'
  let tokenIndex := find_first_of decimalType ','
  let scaleStart := find_first_of decimalType '>'
  match substr decimalType (sizeAdd precisionStart 1)
      (sizeSub (sizeSub tokenIndex precisionStart) 1) with
  | Except.error e => Except.error e
  | Except.ok precisionStr =>
    match stoi precisionStr with
    | Except.error e => Except.error e
    | Except.ok precision =>
      match substr decimalType (sizeAdd tokenIndex 1)
          (sizeSub (sizeSub scaleStart tokenIndex) 1) with
      | Except.error e => Except.error e
      | Except.ok scaleStr =>
        match stoi scaleStr with
        | Except.error e => Except.error e
        | Except.ok scale => Except.ok (TypePtr.DECIMAL precision scale)

/-- The loop of `getRowType` (lines 180 to 196) followed by lines 197 to 199.
`substraitTypeToVeloxType` is a parameter: it goes through
`SubstraitParser::parseType`, which is not part of the sources. `fuel` bounds
the number of iterations; `none` reports that it ran out. -/
def getRowTypeLoop (substraitTypeToVeloxType : List Char → Except Failure TypePtr) :
    Nat → List Char → List TypePtr → List (List Char) → Option (Except Failure TypePtr)
  | fuel, childrenTypes, types, names =>
    let pos := find childrenTypes [',']
    if pos ≠ npos then
      match fuel with
      | 0 => none
      | fuel + 1 =>
        match substr childrenTypes 0 pos with
        | Except.error e => some (Except.error e)
        | Except.ok typeStr =>
          if find typeStr ['d', 'e', 'c'] ≠ npos then
            let endPos := find childrenTypes ['>']
            if sizeAdd pos 1 ≤ endPos then
              match substr childrenTypes pos (sizeSub endPos pos) with
              | Except.error e => some (Except.error e)
              | Except.ok scalePart =>
                match getDecimalType (typeStr ++ scalePart ++ ['>']) with
                | Except.error e => some (Except.error e)
                | Except.ok t =>
                  getRowTypeLoop substraitTypeToVeloxType fuel
                    (childrenTypes.drop (sizeAdd (sizeAdd endPos 1) 1)) (types ++ [t])
                    (names ++ [[]])
            else some (Except.error Failure.veloxCheck)
          else
            match substraitTypeToVeloxType typeStr with
            | Except.error e => some (Except.error e)
            | Except.ok t =>
              getRowTypeLoop substraitTypeToVeloxType fuel
                (childrenTypes.drop (sizeAdd pos 1)) (types ++ [t]) (names ++ [[]])
    else
      match substraitTypeToVeloxType childrenTypes with
      | Except.error e => some (Except.error e)
      | Except.ok t => some (Except.ok (TypePtr.ROW (names ++ [[]]) (types ++ [t])))

/-- The function `getRowType` (lines 166 to 200). -/
def getRowType (substraitTypeToVeloxType : List Char → Except Failure TypePtr) (fuel : Nat)
    (structType : List Char) : Option (Except Failure TypePtr) :=
  let structStart := find_first_of structType '<'
  let structEnd := find_last_of structType '>'
  if 1 < sizeSub structEnd structStart then
    match substr structType (sizeAdd structStart 1)
        (sizeSub (sizeSub structEnd structStart) 1) with
    | Except.error e => some (Except.error e)
    | Except.ok childrenTypes => getRowTypeLoop substraitTypeToVeloxType fuel childrenTypes [] []
  else some (Except.error Failure.veloxCheck)

/-! ## The documented input forms -/

/-- The decimal type string `dec<p,s>` of the comment in `getDecimalType`. -/
def decimalTypeString (p s : List Char) : List Char :=
  ['d', 'e', 'c', '<'] ++ p ++ [','] ++ s ++ ['>']

/-- Scan of one field of a compound name, started inside `depth` open brackets:
the angle brackets are properly nested and closed at the end, and every comma
lies inside at least one bracket. -/
def nestedFrom : List Char → Nat → Bool
  | [], depth => depth == 0
  | c :: cs, depth =>
    if c = '<' then nestedFrom cs (depth + 1)
    else if c = '>' then decide (0 < depth) && nestedFrom cs (depth - 1)
    else if c = ',' then decide (0 < depth) && nestedFrom cs depth
    else nestedFrom cs depth

/-- A field `t` with balanced angle brackets and no comma outside its own
brackets. -/
def balancedField (t : List Char) : Bool := nestedFrom t 0

/-- The fields written one after the other with a comma between them. -/
def joinFields : List (List Char) → List Char
  | [] => []
  | [t] => t
  | t :: t2 :: ts => t ++ ',' :: joinFields (t2 :: ts)

/-- The compound name `N<t1,...,tn>`. -/
def compoundNameOf (name : List Char) (ts : List (List Char)) : List Char :=
  name ++ ['<'] ++ joinFields ts ++ ['>']

/-! ## `toVeloxType` -/

/-- The enumeration `TypeKind` of Velox. -/
inductive TypeKind
  | BOOLEAN
  | TINYINT
  | SMALLINT
  | INTEGER
  | BIGINT
  | REAL
  | DOUBLE
  | VARCHAR
  | VARBINARY
  | TIMESTAMP
  | HUGEINT
  | ARRAY
  | MAP
  | ROW
  | UNKNOWN
  | FUNCTION
  | OPAQUE
  | INVALID
  deriving DecidableEq, Repr

/-- What `toVeloxType` takes from the Velox library, which is not part of the
sources: the text of `DATE()->toString()` and the function
`mapNameToTypeKind`, which may throw. -/
structure VeloxLibrary where
  dateName : List Char
  mapNameToTypeKind : List Char → Except Failure TypeKind

/-- The function `getNameBeforeDelimiter` (lines 56 to 62). -/
def getNameBeforeDelimiter (compoundName delimiter : List Char) : List Char :=
  let pos := find compoundName delimiter
  if pos = npos then compoundName else compoundName.take pos

/-- The function `getPrecisionAndScale` (lines 64 to 76). -/
def getPrecisionAndScale (typeName : List Char) : Except Failure (Int × Int) :=
  let start := find_first_of typeName '<'
  let stop := find_last_of typeName '>'
  if start = npos ∨ stop = npos then Except.error Failure.runtime_error
  else
    match substr typeName (sizeAdd start 1) (sizeSub (sizeSub stop start) 1) with
    | Except.error e => Except.error e
    | Except.ok decimalType =>
      let token_pos := find_first_of decimalType ','
      match substr decimalType 0 token_pos with
      | Except.error e => Except.error e
      | Except.ok precisionStr =>
        match stoi precisionStr with
        | Except.error e => Except.error e
        | Except.ok precision =>
          match substr decimalType (sizeAdd token_pos 1) (sizeSub decimalType.length 1) with
          | Except.error e => Except.error e
          | Except.ok scaleStr =>
            match stoi scaleStr with
            | Except.error e => Except.error e
            | Except.ok scale => Except.ok (precision, scale)

/-- The call `folly::toLowerAscii` on one character. -/
def toLowerAsciiChar (c : Char) : Char :=
  if 65 ≤ c.toNat ∧ c.toNat ≤ 90 then Char.ofNat (c.toNat + 32) else c

/-- The call `folly::toLowerAscii` on a string. -/
def toLowerAscii (s : List Char) : List Char := s.map toLowerAsciiChar

/-- The call `std::to_string(idx)` for a non-negative `int`. -/
def to_string (idx : Nat) : List Char := Nat.toDigits 10 idx

/-- The loop over the fields of a ROW (lines 130 to 145), from field number `idx`
on. `convert` stands for the recursive call of `toVeloxType`; its result `none`
reports that the recursion ran out of fuel. The result is the pair of `names`
and `types`. -/
def rowFields (convert : List Char → Option (Except Failure TypePtr)) (asLowerCase : Bool) :
    List (List Char) → Nat → Option (Except Failure (List (List Char) × List TypePtr))
  | [], _ => some (Except.ok ([], []))
  | fieldTypeAndName :: more, idx =>
    let pos := find_last_of fieldTypeAndName ':'
    let converted : Option (Except Failure (List Char × TypePtr)) :=
      if pos = npos then
        match convert fieldTypeAndName with
        | none => none
        | some (Except.error e) => some (Except.error e)
        | some (Except.ok t) => some (Except.ok (['c', 'o', 'l', '_'] ++ to_string idx, t))
      else
        match substr fieldTypeAndName 0 pos with
        | Except.error e => some (Except.error e)
        | Except.ok typeStr =>
          match convert typeStr with
          | none => none
          | some (Except.error e) => some (Except.error e)
          | some (Except.ok t) =>
            match substr fieldTypeAndName (sizeAdd pos 1) fieldTypeAndName.length with
            | Except.error e => some (Except.error e)
            | Except.ok fieldName =>
              some (Except.ok (if asLowerCase then toLowerAscii fieldName else fieldName, t))
    match converted with
    | none => none
    | some (Except.error e) => some (Except.error e)
    | some (Except.ok (name, t)) =>
      match rowFields convert asLowerCase more (idx + 1) with
      | none => none
      | some (Except.error e) => some (Except.error e)
      | some (Except.ok (names, types)) => some (Except.ok (name :: names, t :: types))

/-- The function `toVeloxType` (lines 78 to 156). The first argument after the
library and the flag bounds the depth of the recursion: each call, the outermost
one included, uses one unit, and `none` reports that the bound was reached. -/
def toVeloxType (velox : VeloxLibrary) (asLowerCase : Bool) :
    Nat → List Char → Option (Except Failure TypePtr)
  | 0, _ => none
  | fuel + 1, typeName =>
    if typeName.isEmpty then some (Except.error Failure.veloxCheck)
    else
      let type := getNameBeforeDelimiter typeName ['<']
      if velox.dateName = type then some (Except.ok TypePtr.DATE)
      else if type = ['S', 'H', 'O', 'R', 'T', '_', 'D', 'E', 'C', 'I', 'M', 'A', 'L'] then
        match getPrecisionAndScale typeName with
        | Except.error e => some (Except.error e)
        | Except.ok decimal => some (Except.ok (TypePtr.DECIMAL decimal.1 decimal.2))
      else
        match velox.mapNameToTypeKind type with
        | Except.error e => some (Except.error e)
        | Except.ok TypeKind.BOOLEAN => some (Except.ok TypePtr.BOOLEAN)
        | Except.ok TypeKind.TINYINT => some (Except.ok TypePtr.TINYINT)
        | Except.ok TypeKind.SMALLINT => some (Except.ok TypePtr.SMALLINT)
        | Except.ok TypeKind.INTEGER => some (Except.ok TypePtr.INTEGER)
        | Except.ok TypeKind.BIGINT => some (Except.ok TypePtr.BIGINT)
        | Except.ok TypeKind.HUGEINT =>
          match getPrecisionAndScale typeName with
          | Except.error e => some (Except.error e)
          | Except.ok decimal => some (Except.ok (TypePtr.DECIMAL decimal.1 decimal.2))
        | Except.ok TypeKind.REAL => some (Except.ok TypePtr.REAL)
        | Except.ok TypeKind.DOUBLE => some (Except.ok TypePtr.DOUBLE)
        | Except.ok TypeKind.VARCHAR => some (Except.ok TypePtr.VARCHAR)
        | Except.ok TypeKind.VARBINARY => some (Except.ok TypePtr.VARBINARY)
        | Except.ok TypeKind.ARRAY =>
          match getTypesFromCompoundName typeName with
          | Except.error e => some (Except.error e)
          | Except.ok fieldTypes =>
            match fieldTypes with
            | [elementType] =>
              match toVeloxType velox asLowerCase fuel elementType with
              | none => none
              | some (Except.error e) => some (Except.error e)
              | some (Except.ok t) => some (Except.ok (TypePtr.ARRAY t))
            | _ => some (Except.error Failure.veloxCheck)
        | Except.ok TypeKind.MAP =>
          match getTypesFromCompoundName typeName with
          | Except.error e => some (Except.error e)
          | Except.ok fieldTypes =>
            match fieldTypes with
            | [key, value] =>
              match toVeloxType velox asLowerCase fuel key with
              | none => none
              | some (Except.error e) => some (Except.error e)
              | some (Except.ok keyType) =>
                match toVeloxType velox asLowerCase fuel value with
                | none => none
                | some (Except.error e) => some (Except.error e)
                | some (Except.ok valueType) => some (Except.ok (TypePtr.MAP keyType valueType))
            | _ => some (Except.error Failure.veloxCheck)
        | Except.ok TypeKind.ROW =>
          match getTypesFromCompoundName typeName with
          | Except.error e => some (Except.error e)
          | Except.ok fieldTypes =>
            if fieldTypes.isEmpty then some (Except.error Failure.veloxCheck)
            else
              match rowFields (toVeloxType velox asLowerCase fuel) asLowerCase fieldTypes 0 with
              | none => none
              | some (Except.error e) => some (Except.error e)
              | some (Except.ok (names, types)) => some (Except.ok (TypePtr.ROW names types))
        | Except.ok TypeKind.TIMESTAMP => some (Except.ok TypePtr.TIMESTAMP)
        | Except.ok TypeKind.UNKNOWN => some (Except.ok TypePtr.UNKNOWN)
        | Except.ok _ => some (Except.error Failure.veloxNyi)

/-- The kind names of Velox, used to instantiate the theorems: a name is mapped
to the kind of the same spelling, any other text makes `mapNameToTypeKind`
throw. -/
def veloxKindOfName (name : List Char) : Except Failure TypeKind :=
  if name = "BOOLEAN".toList then Except.ok TypeKind.BOOLEAN
  else if name = "TINYINT".toList then Except.ok TypeKind.TINYINT
  else if name = "SMALLINT".toList then Except.ok TypeKind.SMALLINT
  else if name = "INTEGER".toList then Except.ok TypeKind.INTEGER
  else if name = "BIGINT".toList then Except.ok TypeKind.BIGINT
  else if name = "REAL".toList then Except.ok TypeKind.REAL
  else if name = "DOUBLE".toList then Except.ok TypeKind.DOUBLE
  else if name = "VARCHAR".toList then Except.ok TypeKind.VARCHAR
  else if name = "VARBINARY".toList then Except.ok TypeKind.VARBINARY
  else if name = "TIMESTAMP".toList then Except.ok TypeKind.TIMESTAMP
  else if name = "HUGEINT".toList then Except.ok TypeKind.HUGEINT
  else if name = "ARRAY".toList then Except.ok TypeKind.ARRAY
  else if name = "MAP".toList then Except.ok TypeKind.MAP
  else if name = "ROW".toList then Except.ok TypeKind.ROW
  else if name = "UNKNOWN".toList then Except.ok TypeKind.UNKNOWN
  else if name = "FUNCTION".toList then Except.ok TypeKind.FUNCTION
  else if name = "OPAQUE".toList then Except.ok TypeKind.OPAQUE
  else if name = "INVALID".toList then Except.ok TypeKind.INVALID
  else Except.error Failure.veloxUserError

/-- The Velox library with `DATE` printed as `DATE` and the kind names above. -/
def veloxLibrary : VeloxLibrary := VeloxLibrary.mk "DATE".toList veloxKindOfName

end gluten

/-! # Theorems, part 1: the write adapter -/

namespace local_engine

theorem subSize_of_le {a b : Nat} (hb : b ≤ a) (ha : a < SIZE_MOD) : subSize a b = a - b := by
  unfold subSize SIZE_MOD at *
  omega

theorem toJint_of_le {x : Nat} (hx : x ≤ JINT_MAX) : toJint x = (x : Int) := by
  unfold toJint JINT_MAX at *
  have h1 : x % 2 ^ 32 = x := Nat.mod_eq_of_lt (by omega)
  have h2 : x < 2 ^ 31 := by omega
  rw [h1, if_pos h2]

theorem addJint_of_lt {a m : Nat} (h : a + m < SIZE_MOD) : addJint a (m : Int) = a + m := by
  unfold addJint SIZE_MOD at *
  omega

theorem SetByteArrayRegion_prefix (a : JByteArray) (m : Nat) (src : List Nat)
    (hm : m ≤ a.data.length) (hs : m ≤ src.length) :
    ∃ a1, SetByteArrayRegion (some a) 0 (m : Int) src = some a1 ∧
      a1.data = src.take m ++ a.data.drop m ∧ a1.data.length = a.data.length := by
  have hcond : (0 : Int) ≤ 0 ∧ (0 : Int) ≤ (m : Int) ∧ (0 : Int) + (m : Int) ≤ (a.data.length : Int) := by
    omega
  refine ⟨_, by simp only [SetByteArrayRegion, dif_pos hcond]; rfl, ?_, ?_⟩
  · simp
  · simp
    omega


theorem nextImplLoop_exit (host : Host) (w : WriteBufferFromJavaOutputStream) (fuel bw : Nat)
    (jvm : Jvm) (h : subSize w.offset bw = 0) :
    nextImplLoop host w fuel bw jvm = (Outcome.returned, jvm) := by
  unfold nextImplLoop
  simp [h]

theorem nextImplLoop_step (host : Host) (w : WriteBufferFromJavaOutputStream) (fuel bw : Nat)
    (jvm : Jvm) (a : JByteArray) (hbw : bw < w.offset)
    (hm : min (w.offset - bw) w.buffer_size ≤ JINT_MAX) (ha : jvm.buffer = some a)
    (hcap : min (w.offset - bw) w.buffer_size ≤ a.data.length) :
    ∃ a1 : JByteArray,
      a1.data = (w.working_buffer.drop bw).take (min (w.offset - bw) w.buffer_size)
        ++ a.data.drop (min (w.offset - bw) w.buffer_size) ∧
      a1.data.length = a.data.length ∧
      nextImplLoop host w (fuel + 1) bw jvm =
        if host jvm.calls (HostCall.write jvm.output_stream a1.data 0
            ((min (w.offset - bw) w.buffer_size : Nat) : Int)) then
          (Outcome.threw BridgeError.HostStreamError,
            Jvm.mk jvm.output_stream (some a1) (jvm.calls ++
              [(HostCall.write jvm.output_stream a1.data 0
                ((min (w.offset - bw) w.buffer_size : Nat) : Int), true)]))
        else
          nextImplLoop host w fuel (bw + min (w.offset - bw) w.buffer_size)
            (Jvm.mk jvm.output_stream (some a1) (jvm.calls ++
              [(HostCall.write jvm.output_stream a1.data 0
                ((min (w.offset - bw) w.buffer_size : Nat) : Int), false)])) := by
  have hoff : w.offset < SIZE_MOD := w.offset_lt
  have hsub : subSize w.offset bw = w.offset - bw := subSize_of_le (Nat.le_of_lt hbw) hoff
  have hsrc : min (w.offset - bw) w.buffer_size ≤ (w.working_buffer.drop bw).length := by
    simp only [List.length_drop]
    exact Nat.min_le_left _ _
  obtain ⟨a1, hset, hdata, hlen⟩ :=
    SetByteArrayRegion_prefix a (min (w.offset - bw) w.buffer_size) (w.working_buffer.drop bw)
      hcap hsrc
  refine ⟨a1, hdata, hlen, ?_⟩
  have hadd : addJint bw ((min (w.offset - bw) w.buffer_size : Nat) : Int)
      = bw + min (w.offset - bw) w.buffer_size := by
    apply addJint_of_lt
    have := Nat.min_le_left (w.offset - bw) w.buffer_size
    omega
  rw [nextImplLoop]
  have hpos : 0 < subSize w.offset bw := by omega
  have hor : (some a1 <|> some a) = some a1 := rfl
  simp only [if_pos hpos, hsub, toJint_of_le hm, ha, hset, safeCallVoidMethod, hadd, hor,
    Option.map_some', Option.getD_some, Option.isSome_some, Bool.not_true, Bool.false_or]
  cases hh : host jvm.calls (HostCall.write jvm.output_stream a1.data 0
      ((min (w.offset - bw) w.buffer_size : Nat) : Int))
  · simp [hbw, Nat.not_le_of_lt hbw]
  · simp [hbw]


theorem ceilDiv_zero {c : Nat} (hc : 1 ≤ c) : ceilDiv 0 c = 0 := by
  unfold ceilDiv
  apply Nat.div_eq_of_lt
  omega

theorem ceilDiv_pos {x c : Nat} (hc : 1 ≤ c) (hx : 1 ≤ x) :
    ceilDiv x c = ceilDiv (x - min x c) c + 1 := by
  unfold ceilDiv
  by_cases h : c ≤ x
  · rw [Nat.min_eq_right h]
    have : x + c - 1 = (x - c + c - 1) + c := by omega
    rw [this, Nat.add_div_right _ (by omega)]
  · have hx' : x < c := Nat.lt_of_not_le h
    rw [Nat.min_eq_left (Nat.le_of_lt hx')]
    have h1 : (x - x + c - 1) / c = 0 := Nat.div_eq_of_lt (by omega)
    have h2 : x + c - 1 = (x - 1) + c := by omega
    have h3 : (x - 1) / c = 0 := Nat.div_eq_of_lt (by omega)
    rw [h1, h2, Nat.add_div_right _ (by omega), h3]

theorem ceilDiv_eq_zero {x c : Nat} (hc : 1 ≤ c) (h : ceilDiv x c = 0) : x = 0 := by
  by_contra hx
  have := ceilDiv_pos hc (Nat.one_le_iff_ne_zero.mpr hx)
  omega

theorem passed_nil : passed [] = [] := rfl

theorem passed_cons (x : HostCall × Bool) (xs : List (HostCall × Bool)) :
    passed (x :: xs) = x.1.chunk ++ passed xs := by
  simp [passed]

theorem passed_append (xs ys : List (HostCall × Bool)) :
    passed (xs ++ ys) = passed xs ++ passed ys := by
  simp [passed]

theorem expectedCalls_zero {c : Nat} (hc : 1 ≤ c) : expectedCalls 0 c = [] := by
  simp [expectedCalls, ceilDiv_zero hc]

theorem expectedCalls_pos {x c : Nat} (hc : 1 ≤ c) (hx : 1 ≤ x) :
    expectedCalls x c =
      (true, ((0 : Int), ((min x c : Nat) : Int)), false) :: expectedCalls (x - min x c) c := by
  unfold expectedCalls
  rw [ceilDiv_pos hc hx, List.range_succ_eq_map, List.map_cons, List.map_map]
  congr 1
  · simp
  · by_cases h : c ≤ x
    · rw [Nat.min_eq_right h]
      apply List.map_congr_left
      intro i _
      simp only [Function.comp, Nat.succ_mul]
      have : x - (i * c + c) = x - c - i * c := by omega
      rw [this]
    · have hx' : x < c := Nat.lt_of_not_le h
      rw [Nat.min_eq_left (Nat.le_of_lt hx'), Nat.sub_self, ceilDiv_zero hc]
      rfl

theorem nextImplLoop_faultFree (w : WriteBufferFromJavaOutputStream)
    (hc1 : 1 ≤ w.buffer_size) (hm : min w.offset w.buffer_size ≤ JINT_MAX) :
    ∀ (fuel bw : Nat) (jvm : Jvm) (a : JByteArray), bw ≤ w.offset → jvm.buffer = some a →
      min w.offset w.buffer_size ≤ a.data.length →
      ceilDiv (w.offset - bw) w.buffer_size ≤ fuel →
      ∃ (a1 : JByteArray) (new : List (HostCall × Bool)),
        nextImplLoop faultFree w fuel bw jvm =
          (Outcome.returned, Jvm.mk jvm.output_stream (some a1) (jvm.calls ++ new)) ∧
        a1.data.length = a.data.length ∧
        passed new = w.working_buffer.drop bw ∧
        new.map (fun x => (x.1.isWrite, x.1.offLen, x.2)) =
          expectedCalls (w.offset - bw) w.buffer_size := by
  intro fuel
  induction fuel with
  | zero =>
    intro bw jvm a hbw ha _ hfuel
    have hz : w.offset - bw = 0 := ceilDiv_eq_zero hc1 (Nat.le_zero.mp hfuel)
    have hsub : subSize w.offset bw = 0 := by
      rw [subSize_of_le hbw w.offset_lt]; exact hz
    refine ⟨a, [], ?_, rfl, ?_, ?_⟩
    · rw [nextImplLoop_exit _ _ _ _ _ hsub]
      cases jvm
      simp_all
    · rw [passed_nil, List.drop_eq_nil_of_le]
      show w.offset ≤ bw
      omega
    · rw [hz, expectedCalls_zero hc1]; rfl
  | succ fuel ih =>
    intro bw jvm a hbw ha hcap hfuel
    by_cases hz : w.offset - bw = 0
    · have hsub : subSize w.offset bw = 0 := by
        rw [subSize_of_le hbw w.offset_lt]; exact hz
      refine ⟨a, [], ?_, rfl, ?_, ?_⟩
      · rw [nextImplLoop_exit _ _ _ _ _ hsub]
        cases jvm
        simp_all
      · rw [passed_nil, List.drop_eq_nil_of_le]
        show w.offset ≤ bw
        omega
      · rw [hz, expectedCalls_zero hc1]; rfl
    · have hlt : bw < w.offset := by omega
      have hmin : min (w.offset - bw) w.buffer_size ≤ min w.offset w.buffer_size :=
        min_le_min (Nat.sub_le _ _) (Nat.le_refl _)
      obtain ⟨a1, hdata, hlen, hstep⟩ := nextImplLoop_step faultFree w fuel bw jvm a hlt
        (Nat.le_trans hmin hm) ha (Nat.le_trans hmin hcap)
      have hpos := ceilDiv_pos hc1 (show 1 ≤ w.offset - bw by omega)
      have hle : min (w.offset - bw) w.buffer_size ≤ w.offset - bw := Nat.min_le_left _ _
      have hsubeq : w.offset - (bw + min (w.offset - bw) w.buffer_size)
          = w.offset - bw - min (w.offset - bw) w.buffer_size := by omega
      obtain ⟨a2, new, hrun, hlen2, hpass, hshape⟩ :=
        ih (bw + min (w.offset - bw) w.buffer_size)
          (Jvm.mk jvm.output_stream (some a1) (jvm.calls ++
            [(HostCall.write jvm.output_stream a1.data 0
              ((min (w.offset - bw) w.buffer_size : Nat) : Int), false)]))
          a1 (by omega) rfl (by rw [hlen]; exact hcap) (by rw [hsubeq]; omega)
      refine ⟨a2, (HostCall.write jvm.output_stream a1.data 0
              ((min (w.offset - bw) w.buffer_size : Nat) : Int), false) :: new, ?_, ?_, ?_, ?_⟩
      · rw [hstep]
        simp only [faultFree, Bool.false_eq_true, if_false]
        rw [hrun]
        simp
      · rw [hlen2, hlen]
      · rw [passed_cons, hpass]
        simp only [HostCall.chunk, Int.toNat_zero, List.drop_zero, Int.toNat_ofNat]
        have hoffdef : w.offset = w.working_buffer.length := rfl
        rw [hdata, List.take_append_of_le_length (by simp only [List.length_take, List.length_drop]; omega)]
        rw [List.take_take, Nat.min_self]
        conv_rhs => rw [← List.take_append_drop (min (w.offset - bw) w.buffer_size)
          (List.drop bw w.working_buffer)]
        rw [List.drop_drop, Nat.add_comm]
      · rw [List.map_cons, hshape, expectedCalls_pos hc1 (show 1 ≤ w.offset - bw by omega), hsubeq]
        rfl


theorem nextImplLoop_succ (host : Host) (w : WriteBufferFromJavaOutputStream) (fuel bw : Nat)
    (jvm : Jvm) (hpos : 0 < subSize w.offset bw) :
    ∃ (b : List Nat) (len : Int) (buf : Option JByteArray) (flag : Bool),
      nextImplLoop host w (fuel + 1) bw jvm =
        if flag then
          (Outcome.threw BridgeError.HostStreamError,
            Jvm.mk jvm.output_stream buf
              (jvm.calls ++ [(HostCall.write jvm.output_stream b 0 len, true)]))
        else
          nextImplLoop host w fuel
            (addJint bw (toJint (min (subSize w.offset bw) w.buffer_size)))
            (Jvm.mk jvm.output_stream buf
              (jvm.calls ++ [(HostCall.write jvm.output_stream b 0 len, false)])) := by
  refine ⟨((SetByteArrayRegion jvm.buffer 0 (toJint (min (subSize w.offset bw) w.buffer_size))
        (w.working_buffer.drop bw) <|> jvm.buffer).map JByteArray.data).getD [],
    toJint (min (subSize w.offset bw) w.buffer_size),
    (SetByteArrayRegion jvm.buffer 0 (toJint (min (subSize w.offset bw) w.buffer_size))
        (w.working_buffer.drop bw) <|> jvm.buffer),
    (!(SetByteArrayRegion jvm.buffer 0
      (toJint (min (subSize w.offset bw) w.buffer_size))
      (w.working_buffer.drop bw)).isSome ||
      host jvm.calls (HostCall.write jvm.output_stream
        (((SetByteArrayRegion jvm.buffer 0 (toJint (min (subSize w.offset bw) w.buffer_size))
          (w.working_buffer.drop bw) <|> jvm.buffer).map JByteArray.data).getD []) 0
        (toJint (min (subSize w.offset bw) w.buffer_size)))), ?_⟩
  rw [nextImplLoop]
  simp only [if_pos hpos, safeCallVoidMethod]
  split_ifs with h
  · simp only [h]
  · simp only [h]

/-- Invariant of the record of calls of one run of the loop, for any host. -/
theorem nextImplLoop_calls (host : Host) (w : WriteBufferFromJavaOutputStream) :
    ∀ (fuel bw : Nat) (jvm : Jvm),
      ∃ new : List (HostCall × Bool),
        (nextImplLoop host w fuel bw jvm).2.calls = jvm.calls ++ new ∧
        (nextImplLoop host w fuel bw jvm).2.output_stream = jvm.output_stream ∧
        (∀ x ∈ new, ∃ b len, x.1 = HostCall.write jvm.output_stream b 0 len) ∧
        (0 < subSize w.offset bw → 0 < fuel → new ≠ []) ∧
        ((∀ x ∈ new, x.2 = false) ∧
            (nextImplLoop host w fuel bw jvm).1 ≠ Outcome.threw BridgeError.HostStreamError ∧
            (∀ e, (nextImplLoop host w fuel bw jvm).1 ≠ Outcome.threw e)
          ∨ (nextImplLoop host w fuel bw jvm).1 = Outcome.threw BridgeError.HostStreamError ∧
            ∃ init c, new = init ++ [(c, true)] ∧ ∀ x ∈ init, x.2 = false) := by
  intro fuel
  induction fuel with
  | zero =>
    intro bw jvm
    refine ⟨[], ?_, ?_, ?_, ?_, ?_⟩
    · rw [nextImplLoop]; split_ifs <;> simp
    · rw [nextImplLoop]; split_ifs <;> simp
    · simp
    · intro _ h; exact absurd h (Nat.lt_irrefl 0)
    · left
      rw [nextImplLoop]; split_ifs <;> simp
  | succ fuel ih =>
    intro bw jvm
    by_cases hpos : 0 < subSize w.offset bw
    · obtain ⟨b, len, buf, flag, hstep⟩ := nextImplLoop_succ host w fuel bw jvm hpos
      cases flag with
      | true =>
        refine ⟨[(HostCall.write jvm.output_stream b 0 len, true)], ?_, ?_, ?_, ?_, ?_⟩
        · rw [hstep]; simp
        · rw [hstep]; simp
        · intro x hx
          simp only [List.mem_singleton] at hx
          exact ⟨b, len, by rw [hx]⟩
        · intro _ _; simp
        · right
          refine ⟨by rw [hstep]; simp, [], _, rfl, by simp⟩
      | false =>
        obtain ⟨new, h1, h2, h3, _, h5⟩ := ih
          (addJint bw (toJint (min (subSize w.offset bw) w.buffer_size)))
          (Jvm.mk jvm.output_stream buf
            (jvm.calls ++ [(HostCall.write jvm.output_stream b 0 len, false)]))
        simp only [Bool.false_eq_true, if_false] at hstep
        rw [hstep]
        refine ⟨(HostCall.write jvm.output_stream b 0 len, false) :: new, ?_, ?_, ?_, ?_, ?_⟩
        · rw [h1]; simp
        · rw [h2]
        · intro x hx
          rcases List.mem_cons.mp hx with hx | hx
          · exact ⟨b, len, by rw [hx]⟩
          · exact h3 x hx
        · intro _ _; simp
        · rcases h5 with ⟨h5a, h5b, h5c⟩ | ⟨h5a, init, c, h5b, h5c⟩
          · left
            refine ⟨?_, h5b, h5c⟩
            intro x hx
            rcases List.mem_cons.mp hx with hx | hx
            · rw [hx]
            · exact h5a x hx
          · right
            refine ⟨h5a, (HostCall.write jvm.output_stream b 0 len, false) :: init, c, ?_, ?_⟩
            · rw [h5b]; simp
            · intro x hx
              rcases List.mem_cons.mp hx with hx | hx
              · rw [hx]
              · exact h5c x hx
    · have hz : subSize w.offset bw = 0 := by omega
      rw [nextImplLoop_exit host w _ bw jvm hz]
      refine ⟨[], by simp, rfl, by simp, ?_, ?_⟩
      · intro h; exact absurd h hpos
      · left; simp

/-- A fault-free drain from the start of the buffer. -/
theorem nextImpl_faultFree (w : WriteBufferFromJavaOutputStream) (jvm : Jvm) (a : JByteArray)
    (fuel : Nat) (hc1 : 1 ≤ w.buffer_size) (hm : min w.offset w.buffer_size ≤ JINT_MAX)
    (ha : jvm.buffer = some a) (hcap : min w.offset w.buffer_size ≤ a.data.length)
    (hfuel : ceilDiv w.offset w.buffer_size ≤ fuel) :
    ∃ (a1 : JByteArray) (new : List (HostCall × Bool)),
      nextImpl faultFree w fuel jvm =
        (Outcome.returned, Jvm.mk jvm.output_stream (some a1) (jvm.calls ++ new)) ∧
      (nextImpl faultFree w fuel jvm).2.calls.drop jvm.calls.length = new ∧
      passed new = w.working_buffer ∧
      new.map (fun x => (x.1.isWrite, x.1.offLen, x.2)) = expectedCalls w.offset w.buffer_size := by
  obtain ⟨a1, new, hrun, _, hpass, hshape⟩ :=
    nextImplLoop_faultFree w hc1 hm fuel 0 jvm a (Nat.zero_le _) ha hcap (by simpa using hfuel)
  refine ⟨a1, new, hrun, ?_, by simpa using hpass, by simpa using hshape⟩
  unfold nextImpl
  rw [hrun]
  simp

theorem flags_of_expectedCalls {new : List (HostCall × Bool)} {r c : Nat}
    (h : new.map (fun x => (x.1.isWrite, x.1.offLen, x.2)) = expectedCalls r c) :
    ∀ x ∈ new, x.1.isWrite = true ∧ x.2 = false := by
  intro x hx
  have hmem : (x.1.isWrite, x.1.offLen, x.2) ∈ expectedCalls r c := by
    rw [← h]; exact List.mem_map_of_mem _ hx
  unfold expectedCalls at hmem
  obtain ⟨i, _, hi⟩ := List.mem_map.mp hmem
  simp only [Prod.mk.injEq] at hi
  exact ⟨hi.1.symm, hi.2.2.symm⟩

theorem delivered_eq_passed {new : List (HostCall × Bool)} (h : ∀ x ∈ new, x.2 = false) :
    delivered new = passed new := by
  unfold delivered
  congr 1
  apply List.filter_eq_self.mpr
  intro x hx
  simp [h x hx]

/-- C1: for every buffered byte sequence and every transfer-chunk capacity `c`
with `1 ≤ c ≤ 2^31 - 1` (the transfer chunk holding `c` bytes), a drain against a
host that raises no fault returns, and the concatenation in call order of the
chunks passed to the host write calls is the buffered sequence exactly; the
host accepted every one of them. -/
theorem nextImpl_passes_buffer_exactly (w : WriteBufferFromJavaOutputStream) (jvm : Jvm)
    (a : JByteArray) (fuel : Nat)
    (hc1 : 1 ≤ w.buffer_size) (hc2 : w.buffer_size ≤ JINT_MAX)
    (ha : jvm.buffer = some a) (hcap : w.buffer_size ≤ a.data.length)
    (hfuel : ceilDiv w.offset w.buffer_size ≤ fuel) :
    (nextImpl faultFree w fuel jvm).1 = Outcome.returned ∧
    (nextImpl faultFree w fuel jvm).2.calls.take jvm.calls.length = jvm.calls ∧
    passed ((nextImpl faultFree w fuel jvm).2.calls.drop jvm.calls.length) = w.working_buffer ∧
    delivered ((nextImpl faultFree w fuel jvm).2.calls.drop jvm.calls.length)
      = w.working_buffer := by
  obtain ⟨a1, new, hrun, hdrop, hpass, hshape⟩ := nextImpl_faultFree w jvm a fuel hc1
    (Nat.le_trans (Nat.min_le_right _ _) hc2) ha (Nat.le_trans (Nat.min_le_right _ _) hcap) hfuel
  rw [hdrop]
  refine ⟨by rw [hrun], by rw [hrun]; simp, hpass, ?_⟩
  rw [delivered_eq_passed (fun x hx => (flags_of_expectedCalls hshape x hx).2), hpass]

/-- Instance of C1: five bytes through a chunk of two bytes. -/
theorem nextImpl_passes_buffer_exactly_witness :
    (nextImpl faultFree writerFive 3 jvmLive).1 = Outcome.returned ∧
    (nextImpl faultFree writerFive 3 jvmLive).2.calls.take jvmLive.calls.length = jvmLive.calls ∧
    passed ((nextImpl faultFree writerFive 3 jvmLive).2.calls.drop jvmLive.calls.length)
      = [1, 2, 3, 4, 5] ∧
    delivered ((nextImpl faultFree writerFive 3 jvmLive).2.calls.drop jvmLive.calls.length)
      = [1, 2, 3, 4, 5] :=
  nextImpl_passes_buffer_exactly writerFive jvmLive chunkTwo 3 (by decide) (by decide) rfl
    (by decide) (by decide)

/-- C2: chunking invariance. Two adapters holding the same buffered bytes, with
capacities `c1` and `c2` between 1 and `2^31 - 1`, pass the same byte stream to
the host sink. -/
theorem nextImpl_chunking_invariance (w1 w2 : WriteBufferFromJavaOutputStream)
    (jvm1 jvm2 : Jvm) (a1 a2 : JByteArray) (fuel1 fuel2 : Nat)
    (hsame : w1.working_buffer = w2.working_buffer)
    (h11 : 1 ≤ w1.buffer_size) (h12 : w1.buffer_size ≤ JINT_MAX)
    (h21 : 1 ≤ w2.buffer_size) (h22 : w2.buffer_size ≤ JINT_MAX)
    (ha1 : jvm1.buffer = some a1) (hcap1 : w1.buffer_size ≤ a1.data.length)
    (ha2 : jvm2.buffer = some a2) (hcap2 : w2.buffer_size ≤ a2.data.length)
    (hfuel1 : ceilDiv w1.offset w1.buffer_size ≤ fuel1)
    (hfuel2 : ceilDiv w2.offset w2.buffer_size ≤ fuel2) :
    (nextImpl faultFree w1 fuel1 jvm1).1 = Outcome.returned ∧
    (nextImpl faultFree w2 fuel2 jvm2).1 = Outcome.returned ∧
    passed ((nextImpl faultFree w1 fuel1 jvm1).2.calls.drop jvm1.calls.length) =
      passed ((nextImpl faultFree w2 fuel2 jvm2).2.calls.drop jvm2.calls.length) ∧
    delivered ((nextImpl faultFree w1 fuel1 jvm1).2.calls.drop jvm1.calls.length) =
      delivered ((nextImpl faultFree w2 fuel2 jvm2).2.calls.drop jvm2.calls.length) := by
  obtain ⟨b1, new1, hrun1, hdrop1, hpass1, hshape1⟩ := nextImpl_faultFree w1 jvm1 a1 fuel1 h11
    (Nat.le_trans (Nat.min_le_right _ _) h12) ha1 (Nat.le_trans (Nat.min_le_right _ _) hcap1)
    hfuel1
  obtain ⟨b2, new2, hrun2, hdrop2, hpass2, hshape2⟩ := nextImpl_faultFree w2 jvm2 a2 fuel2 h21
    (Nat.le_trans (Nat.min_le_right _ _) h22) ha2 (Nat.le_trans (Nat.min_le_right _ _) hcap2)
    hfuel2
  rw [hdrop1, hdrop2]
  refine ⟨by rw [hrun1], by rw [hrun2], by rw [hpass1, hpass2, hsame], ?_⟩
  rw [delivered_eq_passed (fun x hx => (flags_of_expectedCalls hshape1 x hx).2),
    delivered_eq_passed (fun x hx => (flags_of_expectedCalls hshape2 x hx).2),
    hpass1, hpass2, hsame]

/-- Instance of C2: the same five bytes through chunks of one and of two bytes. -/
theorem nextImpl_chunking_invariance_witness :
    (nextImpl faultFree writerFiveByOne 5 jvmLive).1 = Outcome.returned ∧
    (nextImpl faultFree writerFive 3 jvmLive).1 = Outcome.returned ∧
    passed ((nextImpl faultFree writerFiveByOne 5 jvmLive).2.calls.drop jvmLive.calls.length) =
      passed ((nextImpl faultFree writerFive 3 jvmLive).2.calls.drop jvmLive.calls.length) ∧
    delivered ((nextImpl faultFree writerFiveByOne 5 jvmLive).2.calls.drop jvmLive.calls.length) =
      delivered ((nextImpl faultFree writerFive 3 jvmLive).2.calls.drop jvmLive.calls.length) :=
  nextImpl_chunking_invariance writerFiveByOne writerFive jvmLive jvmLive chunkTwo chunkTwo 5 3
    rfl (by decide) (by decide) (by decide) (by decide) rfl (by decide) rfl (by decide)
    (by decide) (by decide)

theorem ceilDiv_bounds {n c : Nat} (hc : 1 ≤ c) :
    n ≤ ceilDiv n c * c ∧ (1 ≤ n → (ceilDiv n c - 1) * c < n ∧ 1 ≤ ceilDiv n c) := by
  unfold ceilDiv
  have h1 := Nat.div_add_mod (n + c - 1) c
  have h2 := Nat.mod_lt (n + c - 1) (show 0 < c by omega)
  generalize (n + c - 1) / c = k at *
  have h3 : k * c = c * k := Nat.mul_comm _ _
  refine ⟨by omega, fun hn => ?_⟩
  have hk : 1 ≤ k := by
    by_contra hk0
    have : k = 0 := by omega
    subst this
    omega
  have h4 : (k - 1) * c + c = k * c := by
    rw [← Nat.succ_mul]
    congr 1
    omega
  omega

/-- C3: for every buffered length `n` and every capacity `c` with
`1 ≤ c ≤ 2^31 - 1`, a fault-free drain issues exactly `ceil(n / c)` host calls,
all of them writes; call number `i` (from 0) has offset 0 and length
`min (n - i * c) c`. Every call but the last carries `c` bytes, the last carries
`n - c * (ceil(n / c) - 1)` bytes, no call carries 0 bytes or more than `c`
bytes, and an empty buffer issues no call. -/
theorem nextImpl_call_count_and_sizes (w : WriteBufferFromJavaOutputStream) (jvm : Jvm)
    (a : JByteArray) (fuel : Nat)
    (hc1 : 1 ≤ w.buffer_size) (hc2 : w.buffer_size ≤ JINT_MAX)
    (ha : jvm.buffer = some a) (hcap : w.buffer_size ≤ a.data.length)
    (hfuel : ceilDiv w.offset w.buffer_size ≤ fuel) :
    (nextImpl faultFree w fuel jvm).1 = Outcome.returned ∧
    ((nextImpl faultFree w fuel jvm).2.calls.drop jvm.calls.length).length
      = ceilDiv w.offset w.buffer_size ∧
    ((nextImpl faultFree w fuel jvm).2.calls.drop jvm.calls.length).map
        (fun x => (x.1.isWrite, x.1.offLen, x.2))
      = (List.range (ceilDiv w.offset w.buffer_size)).map (fun i =>
          (true, ((0 : Int), ((min (w.offset - i * w.buffer_size) w.buffer_size : Nat) : Int)),
            false)) ∧
    (∀ i, i + 1 < ceilDiv w.offset w.buffer_size →
      min (w.offset - i * w.buffer_size) w.buffer_size = w.buffer_size) ∧
    (0 < ceilDiv w.offset w.buffer_size →
      min (w.offset - (ceilDiv w.offset w.buffer_size - 1) * w.buffer_size) w.buffer_size
        = w.offset - w.buffer_size * (ceilDiv w.offset w.buffer_size - 1)) ∧
    (∀ i, i < ceilDiv w.offset w.buffer_size →
      1 ≤ min (w.offset - i * w.buffer_size) w.buffer_size ∧
      min (w.offset - i * w.buffer_size) w.buffer_size ≤ w.buffer_size) ∧
    (w.offset = 0 → (nextImpl faultFree w fuel jvm).2.calls.drop jvm.calls.length = []) := by
  obtain ⟨a1, new, hrun, hdrop, hpass, hshape⟩ := nextImpl_faultFree w jvm a fuel hc1
    (Nat.le_trans (Nat.min_le_right _ _) hc2) ha (Nat.le_trans (Nat.min_le_right _ _) hcap) hfuel
  rw [hdrop]
  have hlen : new.length = ceilDiv w.offset w.buffer_size := by
    have := congrArg List.length hshape
    simpa [expectedCalls] using this
  obtain ⟨hub, hlb⟩ := ceilDiv_bounds (n := w.offset) hc1
  -- every index below the count leaves at least one byte to send
  have hidx : ∀ i, i < ceilDiv w.offset w.buffer_size → i * w.buffer_size < w.offset := by
    intro i hi
    have hn : 1 ≤ w.offset := by
      by_contra h0
      have : w.offset = 0 := by omega
      rw [this, ceilDiv_zero hc1] at hi
      omega
    have hle : i * w.buffer_size ≤ (ceilDiv w.offset w.buffer_size - 1) * w.buffer_size :=
      Nat.mul_le_mul_right _ (by omega)
    have := (hlb hn).1
    omega
  refine ⟨by rw [hrun], hlen, hshape, ?_, ?_, ?_, ?_⟩
  · intro i hi
    have := hidx (i + 1) hi
    rw [Nat.succ_mul] at this
    exact Nat.min_eq_right (by omega)
  · intro hpos
    have hlt := hidx (ceilDiv w.offset w.buffer_size - 1) (by omega)
    have hsucc : (ceilDiv w.offset w.buffer_size - 1) * w.buffer_size + w.buffer_size
        = ceilDiv w.offset w.buffer_size * w.buffer_size := by
      rw [← Nat.succ_mul]
      congr 1
      omega
    rw [Nat.mul_comm w.buffer_size]
    exact Nat.min_eq_left (by omega)
  · intro i hi
    have := hidx i hi
    exact ⟨by rw [Nat.le_min]; omega, Nat.min_le_right _ _⟩
  · intro h0
    have : new.length = 0 := by rw [hlen, h0, ceilDiv_zero hc1]
    exact List.length_eq_zero.mp this

/-- Instance of C3: five bytes through a chunk of two bytes make three calls of
2, 2 and 1 bytes. -/
theorem nextImpl_call_count_and_sizes_witness :
    ((nextImpl faultFree writerFive 3 jvmLive).2.calls.drop jvmLive.calls.length).length = 3 ∧
    ((nextImpl faultFree writerFive 3 jvmLive).2.calls.drop jvmLive.calls.length).map
        (fun x => (x.1.isWrite, x.1.offLen, x.2))
      = [(true, (0, 2), false), (true, (0, 2), false), (true, (0, 1), false)] :=
  have h := nextImpl_call_count_and_sizes writerFive jvmLive chunkTwo 3 (by decide) (by decide)
    rfl (by decide) (by decide)
  ⟨h.2.1, h.2.2.1⟩

/-- A negative length is rejected by `SetByteArrayRegion`. -/
theorem SetByteArrayRegion_negative (array : Option JByteArray) (start len : Int)
    (src : List Nat) (hlen : len < 0) : SetByteArrayRegion array start len src = none := by
  cases array with
  | none => rfl
  | some a =>
    have hcond : ¬ (0 ≤ start ∧ 0 ≤ len ∧ start + len ≤ (a.data.length : Int)) := by omega
    simp only [SetByteArrayRegion, dif_neg hcond]

/-- One iteration of the loop of `nextImpl` when the staging copy is rejected:
the write call is still issued, with the exception pending, and the helper
throws. -/
theorem nextImplLoop_staging_rejected (host : Host) (w : WriteBufferFromJavaOutputStream)
    (fuel bw : Nat) (jvm : Jvm) (hpos : 0 < subSize w.offset bw)
    (hstage : SetByteArrayRegion jvm.buffer 0
      (toJint (min (subSize w.offset bw) w.buffer_size)) (w.working_buffer.drop bw) = none) :
    nextImplLoop host w (fuel + 1) bw jvm =
      (Outcome.threw BridgeError.HostStreamError,
        Jvm.mk jvm.output_stream jvm.buffer
          (jvm.calls ++ [(HostCall.write jvm.output_stream
            ((jvm.buffer.map JByteArray.data).getD []) 0
            (toJint (min (subSize w.offset bw) w.buffer_size)), true)])) := by
  rw [nextImplLoop]
  simp only [if_pos hpos, hstage, safeCallVoidMethod]
  cases jvm.buffer <;> simp

/-- When `nextImpl` throws on a non-empty buffer, `next` empties the buffer and
passes the exception on. -/
theorem next_of_threw (host : Host) (w : WriteBufferFromJavaOutputStream) (fuel : Nat)
    (jvm jvm1 : Jvm) (e : BridgeError) (hne : ¬ w.offset = 0)
    (h : nextImpl host w fuel jvm = (Outcome.threw e, jvm1)) :
    next host w fuel jvm = (Outcome.threw e,
      WriteBufferFromJavaOutputStream.mk [] w.buffer_size (by decide) w.buffer_size_lt, jvm1) := by
  unfold next
  rw [if_neg hne, h]

/-- When `nextImpl` throws on a non-empty buffer, `finalizeImpl` throws too and
issues no call of its own. -/
theorem finalizeImpl_of_threw (host : Host) (w : WriteBufferFromJavaOutputStream) (fuel : Nat)
    (jvm jvm1 : Jvm) (e : BridgeError) (hne : ¬ w.offset = 0)
    (h : nextImpl host w fuel jvm = (Outcome.threw e, jvm1)) :
    finalizeImpl host w fuel jvm = (Outcome.threw e,
      WriteBufferFromJavaOutputStream.mk [] w.buffer_size (by decide) w.buffer_size_lt, jvm1) := by
  unfold finalizeImpl
  rw [next_of_threw host w fuel jvm jvm1 e hne h]

/-- The buffer of `writerBeyondJint` holds `2 ^ 31` bytes. -/
theorem writerBeyondJint_offset : writerBeyondJint.offset = 2 ^ 31 := by
  show (List.replicate (2 ^ 31) 0).length = 2 ^ 31
  rw [List.length_replicate]

/-- The length of the first chunk of `writerBeyondJint`, as a `jint`. -/
theorem writerBeyondJint_copy_num :
    toJint (min (subSize writerBeyondJint.offset 0) writerBeyondJint.buffer_size)
      = -2147483648 := by
  have hsub : subSize writerBeyondJint.offset 0 = 2 ^ 31 := by
    rw [writerBeyondJint_offset]; decide
  have hsize : writerBeyondJint.buffer_size = 2 ^ 31 := rfl
  rw [hsub, hsize]; decide

/-- The run of `nextImpl` on `writerBeyondJint`, whatever the heap: one write
call with the negative length, the exception pending, and the helper throws. -/
theorem nextImpl_writerBeyondJint (fuel : Nat) (jvm : Jvm) :
    nextImpl faultFree writerBeyondJint (fuel + 1) jvm =
      (Outcome.threw BridgeError.HostStreamError,
        Jvm.mk jvm.output_stream jvm.buffer
          (jvm.calls ++ [(HostCall.write jvm.output_stream
            ((jvm.buffer.map JByteArray.data).getD []) 0 (-2147483648), true)])) := by
  have hsub : subSize writerBeyondJint.offset 0 = 2 ^ 31 := by
    rw [writerBeyondJint_offset]; decide
  have hstage : SetByteArrayRegion jvm.buffer 0
      (toJint (min (subSize writerBeyondJint.offset 0) writerBeyondJint.buffer_size))
      (writerBeyondJint.working_buffer.drop 0) = none :=
    SetByteArrayRegion_negative _ _ _ _ (by rw [writerBeyondJint_copy_num]; decide)
  unfold nextImpl
  rw [nextImplLoop_staging_rejected faultFree writerBeyondJint fuel 0 jvm
    (by rw [hsub]; decide) hstage, writerBeyondJint_copy_num]

/-- The run of `finalizeImpl` on `writerBeyondJint`, whatever the heap. -/
theorem finalizeImpl_writerBeyondJint (fuel : Nat) (jvm : Jvm) :
    finalizeImpl faultFree writerBeyondJint (fuel + 1) jvm
      = (Outcome.threw BridgeError.HostStreamError,
          WriteBufferFromJavaOutputStream.mk [] writerBeyondJint.buffer_size (by decide)
            writerBeyondJint.buffer_size_lt,
          Jvm.mk jvm.output_stream jvm.buffer
            (jvm.calls ++ [(HostCall.write jvm.output_stream
              ((jvm.buffer.map JByteArray.data).getD []) 0 (-2147483648), true)])) :=
  finalizeImpl_of_threw _ _ _ _ _ _ (by rw [writerBeyondJint_offset]; decide)
    (nextImpl_writerBeyondJint fuel jvm)

/-- C4, as stated, fails above the largest `jint`: with `2 ^ 31` buffered bytes
and transfer-chunk capacity `c = 2 ^ 31 ≥ 1`, `static_cast<jint>` turns the
length of the first chunk into `-2 ^ 31`; the staging copy is rejected, the one
write call made carries that negative length and comes back with the exception
pending, and `finalizeImpl` throws without draining the buffer and without any
flush call, whatever the number of loop iterations allowed and whatever Java
array serves as transfer chunk (none can hold `2 ^ 31` bytes). -/
theorem finalizeImpl_beyond_jint_counterexample :
    1 ≤ writerBeyondJint.buffer_size ∧
    writerBeyondJint.offset = 2147483648 ∧
    writerBeyondJint.buffer_size = 2147483648 ∧
    toJint (min (subSize writerBeyondJint.offset 0) writerBeyondJint.buffer_size)
      = -2147483648 ∧
    (finalizeImpl faultFree writerBeyondJint 1 jvmLive).1
      = Outcome.threw BridgeError.HostStreamError ∧
    (finalizeImpl faultFree writerBeyondJint 1 jvmLive).2.2.calls
      = [(HostCall.write true [0, 0] 0 (-2147483648), true)] ∧
    (∀ fuel, (finalizeImpl faultFree writerBeyondJint (fuel + 1) jvmLive).1
      = Outcome.threw BridgeError.HostStreamError) ∧
    (∀ fuel, (finalizeImpl faultFree writerBeyondJint (fuel + 1) jvmLive).2.2.calls
      = [(HostCall.write true [0, 0] 0 (-2147483648), true)]) ∧
    (∀ (fuel : Nat) (a : JByteArray),
      (finalizeImpl faultFree writerBeyondJint (fuel + 1) (Jvm.mk true (some a) [])).1
        = Outcome.threw BridgeError.HostStreamError ∧
      (finalizeImpl faultFree writerBeyondJint (fuel + 1) (Jvm.mk true (some a) [])).2.2.calls
        = [(HostCall.write true a.data 0 (-2147483648), true)]) := by
  have hsize : writerBeyondJint.buffer_size = 2147483648 := rfl
  refine ⟨by rw [hsize]; decide, writerBeyondJint_offset, hsize, writerBeyondJint_copy_num,
    ?_, ?_, ?_, ?_, ?_⟩
  · rw [finalizeImpl_writerBeyondJint 0 jvmLive]
  · rw [finalizeImpl_writerBeyondJint 0 jvmLive]
    rfl
  · intro fuel
    rw [finalizeImpl_writerBeyondJint fuel jvmLive]
  · intro fuel
    rw [finalizeImpl_writerBeyondJint fuel jvmLive]
    rfl
  · intro fuel a
    rw [finalizeImpl_writerBeyondJint fuel (Jvm.mk true (some a) [])]
    exact ⟨rfl, rfl⟩

/-- C4, amended: for every buffered byte sequence and every transfer-chunk
capacity `c` with `1 ≤ c ≤ 2^31 - 1` (the transfer chunk holding `c` bytes),
`finalizeImpl` against a host that raises no fault returns, and the foreign
calls it issues are the host write calls that drain the whole buffer (none for
an empty buffer) followed by exactly one flush call: the flush is the last call
and every call before it is a write. -/
theorem finalizeImpl_writes_then_one_flush (w : WriteBufferFromJavaOutputStream) (jvm : Jvm)
    (a : JByteArray) (fuel : Nat)
    (hc1 : 1 ≤ w.buffer_size) (hc2 : w.buffer_size ≤ JINT_MAX)
    (ha : jvm.buffer = some a) (hcap : w.buffer_size ≤ a.data.length)
    (hfuel : ceilDiv w.offset w.buffer_size ≤ fuel) :
    (finalizeImpl faultFree w fuel jvm).1 = Outcome.returned ∧
    ∃ writes : List (HostCall × Bool),
      (finalizeImpl faultFree w fuel jvm).2.2.calls
        = jvm.calls ++ writes ++ [(HostCall.flush jvm.output_stream, false)] ∧
      (∀ x ∈ writes, x.1.isWrite = true ∧ x.2 = false) ∧
      writes.length = ceilDiv w.offset w.buffer_size ∧
      passed writes = w.working_buffer ∧
      (w.offset = 0 → writes = []) := by
  by_cases h0 : w.offset = 0
  · refine ⟨?_, [], ?_, by simp, ?_, ?_, fun _ => rfl⟩
    · simp [finalizeImpl, next, h0, safeCallVoidMethod, faultFree]
    · simp [finalizeImpl, next, h0, safeCallVoidMethod, faultFree]
    · rw [h0, ceilDiv_zero hc1]; rfl
    · have : w.working_buffer.length = 0 := h0
      rw [List.length_eq_zero.mp this]; rfl
  · obtain ⟨a1, new, hrun, _, hpass, hshape⟩ := nextImpl_faultFree w jvm a fuel hc1
      (Nat.le_trans (Nat.min_le_right _ _) hc2) ha (Nat.le_trans (Nat.min_le_right _ _) hcap)
      hfuel
    have hlen : new.length = ceilDiv w.offset w.buffer_size := by
      have := congrArg List.length hshape
      simpa [expectedCalls] using this
    refine ⟨?_, new, ?_, flags_of_expectedCalls hshape, hlen, hpass, fun h => absurd h h0⟩
    · simp [finalizeImpl, next, h0, hrun, safeCallVoidMethod, faultFree]
    · simp [finalizeImpl, next, h0, hrun, safeCallVoidMethod, faultFree]

/-- Instance of the amended C4: five bytes, chunk of two bytes: three writes,
then the flush. -/
theorem finalizeImpl_writes_then_one_flush_witness :
    (finalizeImpl faultFree writerFive 3 jvmLive).1 = Outcome.returned ∧
    ∃ writes : List (HostCall × Bool),
      (finalizeImpl faultFree writerFive 3 jvmLive).2.2.calls
        = jvmLive.calls ++ writes ++ [(HostCall.flush jvmLive.output_stream, false)] ∧
      (∀ x ∈ writes, x.1.isWrite = true ∧ x.2 = false) ∧
      writes.length = 3 ∧
      passed writes = [1, 2, 3, 4, 5] ∧
      (writerFive.offset = 0 → writes = []) :=
  finalizeImpl_writes_then_one_flush writerFive jvmLive chunkTwo 3 (by decide) (by decide) rfl
    (by decide) (by decide)

theorem delivered_nil : delivered [] = [] := rfl

theorem delivered_cons_false (c : HostCall) (xs : List (HostCall × Bool)) :
    delivered ((c, false) :: xs) = c.chunk ++ delivered xs := by
  simp [delivered, passed]

theorem delivered_cons_true (c : HostCall) (xs : List (HostCall × Bool)) :
    delivered ((c, true) :: xs) = delivered xs := by
  simp [delivered]

/-- For any host, what the host accepted during a run of the loop is an initial
segment of the bytes still to deliver: as many full chunks as calls came back
normally. -/
theorem nextImplLoop_delivered (host : Host) (w : WriteBufferFromJavaOutputStream)
    (hm : min w.offset w.buffer_size ≤ JINT_MAX) :
    ∀ (fuel bw : Nat) (jvm : Jvm) (a : JByteArray), bw ≤ w.offset → jvm.buffer = some a →
      min w.offset w.buffer_size ≤ a.data.length →
      ∃ new : List (HostCall × Bool),
        (nextImplLoop host w fuel bw jvm).2.calls = jvm.calls ++ new ∧
        delivered new = (w.working_buffer.drop bw).take
          ((new.filter fun x => !x.2).length * w.buffer_size) := by
  intro fuel
  induction fuel with
  | zero =>
    intro bw jvm a _ _ _
    refine ⟨[], ?_, by simp [delivered_nil]⟩
    rw [nextImplLoop]; split_ifs <;> simp
  | succ fuel ih =>
    intro bw jvm a hbw ha hcap
    by_cases hz : w.offset - bw = 0
    · have hsub : subSize w.offset bw = 0 := by
        rw [subSize_of_le hbw w.offset_lt]; exact hz
      rw [nextImplLoop_exit _ _ _ _ _ hsub]
      exact ⟨[], by simp, by simp [delivered_nil]⟩
    · have hlt : bw < w.offset := by omega
      have hmin : min (w.offset - bw) w.buffer_size ≤ min w.offset w.buffer_size :=
        min_le_min (Nat.sub_le _ _) (Nat.le_refl _)
      obtain ⟨a1, hdata, hlen, hstep⟩ := nextImplLoop_step host w fuel bw jvm a hlt
        (Nat.le_trans hmin hm) ha (Nat.le_trans hmin hcap)
      have hle : min (w.offset - bw) w.buffer_size ≤ w.offset - bw := Nat.min_le_left _ _
      have hoffdef : w.offset = w.working_buffer.length := rfl
      cases hh : host jvm.calls (HostCall.write jvm.output_stream a1.data 0
          ((min (w.offset - bw) w.buffer_size : Nat) : Int))
      · rw [hh] at hstep
        simp only [Bool.false_eq_true, if_false] at hstep
        obtain ⟨new, hcalls, hdel⟩ := ih (bw + min (w.offset - bw) w.buffer_size)
          (Jvm.mk jvm.output_stream (some a1) (jvm.calls ++
            [(HostCall.write jvm.output_stream a1.data 0
              ((min (w.offset - bw) w.buffer_size : Nat) : Int), false)]))
          a1 (by omega) rfl (by rw [hlen]; exact hcap)
        refine ⟨(HostCall.write jvm.output_stream a1.data 0
              ((min (w.offset - bw) w.buffer_size : Nat) : Int), false) :: new, ?_, ?_⟩
        · rw [hstep, hcalls]; simp
        · rw [delivered_cons_false, hdel]
          simp only [HostCall.chunk, Int.toNat_zero, List.drop_zero, Int.toNat_ofNat]
          rw [hdata, List.take_append_of_le_length
            (by simp only [List.length_take, List.length_drop]; omega)]
          rw [List.take_take, Nat.min_self]
          have hfil : (List.filter (fun x => !x.2)
              ((HostCall.write jvm.output_stream
                (List.take (min (w.offset - bw) w.buffer_size) (List.drop bw w.working_buffer)
                  ++ List.drop (min (w.offset - bw) w.buffer_size) a.data) 0
                ((min (w.offset - bw) w.buffer_size : Nat) : Int), false) :: new)).length
              = (List.filter (fun x => !x.2) new).length + 1 := by
            simp
          rw [hfil, Nat.succ_mul]
          generalize (List.filter (fun x => !x.2) new).length * w.buffer_size = j
          by_cases hc : w.buffer_size ≤ w.offset - bw
          · rw [Nat.min_eq_right hc, ← List.drop_drop, Nat.add_comm j, List.take_add]
          · have hlt2 : w.offset - bw < w.buffer_size := Nat.lt_of_not_le hc
            rw [Nat.min_eq_left (Nat.le_of_lt hlt2)]
            have hd : List.drop (bw + (w.offset - bw)) w.working_buffer = [] :=
              List.drop_eq_nil_of_le (by omega)
            rw [hd, List.take_nil, List.append_nil]
            rw [List.take_of_length_le (by simp only [List.length_drop]; omega)]
            rw [List.take_of_length_le (by simp only [List.length_drop]; omega)]
      · rw [hh] at hstep
        simp only [if_true] at hstep
        refine ⟨[(HostCall.write jvm.output_stream a1.data 0
              ((min (w.offset - bw) w.buffer_size : Nat) : Int), true)], ?_, ?_⟩
        · rw [hstep]
        · rw [delivered_cons_true]; simp [delivered_nil]

theorem filter_ok_append_failed (init : List (HostCall × Bool)) (c : HostCall)
    (h : ∀ x ∈ init, x.2 = false) :
    (init ++ [(c, true)]).filter (fun x => !x.2) = init := by
  rw [List.filter_append]
  have h1 : init.filter (fun x => !x.2) = init :=
    List.filter_eq_self.mpr (fun x hx => by simp [h x hx])
  rw [h1]
  simp

/-- C5: for any host, if the `k`-th host write call issued by `nextImpl` comes
back with a fault, then `nextImpl` throws `HostStreamError` and the pass stops
there: exactly `k` calls were attempted, all of them writes, the first `k - 1`
came back normally, and the bytes the host accepted are exactly the chunks of
those first `k - 1` calls (for a capacity `c` with `1 ≤ c ≤ 2^31 - 1` held by
the transfer chunk, the first `(k - 1) * c` buffered bytes). `finalizeImpl`
started on the same state throws the same error and issues exactly the same
calls, hence no flush. -/
theorem nextImpl_write_failure_aborts (host : Host) (w : WriteBufferFromJavaOutputStream)
    (fuel : Nat) (jvm : Jvm) (k : Nat) (call : HostCall) (hk : 1 ≤ k)
    (hfail : ((nextImpl host w fuel jvm).2.calls.drop jvm.calls.length)[k - 1]?
      = some (call, true)) :
    (nextImpl host w fuel jvm).1 = Outcome.threw BridgeError.HostStreamError ∧
    ((nextImpl host w fuel jvm).2.calls.drop jvm.calls.length).length = k ∧
    (∀ x ∈ (nextImpl host w fuel jvm).2.calls.drop jvm.calls.length, x.1.isWrite = true) ∧
    (∀ x ∈ ((nextImpl host w fuel jvm).2.calls.drop jvm.calls.length).take (k - 1),
      x.2 = false) ∧
    delivered ((nextImpl host w fuel jvm).2.calls.drop jvm.calls.length)
      = passed (((nextImpl host w fuel jvm).2.calls.drop jvm.calls.length).take (k - 1)) ∧
    (∀ a : JByteArray, 1 ≤ w.buffer_size → w.buffer_size ≤ JINT_MAX → jvm.buffer = some a →
      w.buffer_size ≤ a.data.length →
      delivered ((nextImpl host w fuel jvm).2.calls.drop jvm.calls.length)
        = w.working_buffer.take ((k - 1) * w.buffer_size)) ∧
    (finalizeImpl host w fuel jvm).1 = Outcome.threw BridgeError.HostStreamError ∧
    (finalizeImpl host w fuel jvm).2.2.calls = (nextImpl host w fuel jvm).2.calls ∧
    (∀ x ∈ (finalizeImpl host w fuel jvm).2.2.calls.drop jvm.calls.length,
      x.1.isWrite = true) := by
  obtain ⟨new, hcalls, _, hwrites, _, hcases⟩ := nextImplLoop_calls host w fuel 0 jvm
  have hdrop : (nextImpl host w fuel jvm).2.calls.drop jvm.calls.length = new := by
    unfold nextImpl
    rw [hcalls]; simp
  rw [hdrop] at hfail ⊢
  have hmemk : (call, true) ∈ new := List.mem_iff_getElem?.mpr ⟨_, hfail⟩
  rcases hcases with ⟨hall, _, _⟩ | ⟨hthrew, init, c, hnew, hinit⟩
  · have := hall _ hmemk
    simp at this
  · have hklen : k - 1 < new.length := by
      rcases Nat.lt_or_ge (k - 1) new.length with h | h
      · exact h
      · rw [List.getElem?_eq_none h] at hfail
        cases hfail
    have hnewlen : new.length = init.length + 1 := by rw [hnew]; simp
    have hkinit : k - 1 = init.length := by
      rcases Nat.lt_or_ge (k - 1) init.length with h | h
      · rw [hnew, List.getElem?_append_left h] at hfail
        have hmem : (call, true) ∈ init := List.mem_iff_getElem?.mpr ⟨_, hfail⟩
        have := hinit _ hmem
        simp at this
      · omega
    have htake : new.take (k - 1) = init := by
      rw [hkinit, hnew, List.take_left]
    have hisw : ∀ x ∈ new, x.1.isWrite = true := by
      intro x hx
      obtain ⟨b, len, hb⟩ := hwrites x hx
      rw [hb]; rfl
    have hdel : delivered new = passed init := by
      unfold delivered
      rw [hnew, filter_ok_append_failed init c hinit]
    have hoff : w.offset ≠ 0 := by
      intro h0
      have hsub : subSize w.offset 0 = 0 := by rw [h0]; rfl
      have hex := nextImplLoop_exit host w fuel 0 jvm hsub
      rw [hex] at hcalls
      have : new = [] := by simpa using hcalls
      rw [this] at hnewlen
      simp at hnewlen
    have hthrew2 : (nextImpl host w fuel jvm).1 = Outcome.threw BridgeError.HostStreamError :=
      hthrew
    have hfin : finalizeImpl host w fuel jvm =
        (Outcome.threw BridgeError.HostStreamError,
          WriteBufferFromJavaOutputStream.mk [] w.buffer_size (by decide) w.buffer_size_lt,
          (nextImpl host w fuel jvm).2) := by
      unfold finalizeImpl next
      rw [if_neg hoff]
      rcases hres : nextImpl host w fuel jvm with ⟨out, jvm1⟩
      rw [hres] at hthrew2
      simp only at hthrew2
      subst hthrew2
      rfl
    refine ⟨hthrew, by omega, hisw, by rw [htake]; exact hinit, by rw [htake, hdel], ?_, ?_, ?_,
      ?_⟩
    · intro a hc1 hc2 ha hcap
      obtain ⟨new2, hcalls2, hdel2⟩ := nextImplLoop_delivered host w
        (Nat.le_trans (Nat.min_le_right _ _) hc2) fuel 0 jvm a (Nat.zero_le _) ha
        (Nat.le_trans (Nat.min_le_right _ _) hcap)
      have hsame : new2 = new := by
        rw [hcalls] at hcalls2
        exact (List.append_cancel_left hcalls2).symm
      rw [hsame] at hdel2
      rw [hdel2, hnew, filter_ok_append_failed init c hinit, hkinit]
      simp
    · rw [hfin]
    · rw [hfin]
    · rw [hfin]
      show ∀ x ∈ (nextImpl host w fuel jvm).2.calls.drop jvm.calls.length, x.1.isWrite = true
      rw [hdrop]
      exact hisw

/-- Instance of C5: five bytes, chunk of two bytes, the host faults on the second
write: two calls were attempted, the host accepted the first two bytes, and
`finalizeImpl` issues no flush. -/
theorem nextImpl_write_failure_aborts_witness :
    (nextImpl (failsAt 2) writerFive 3 jvmLive).1 = Outcome.threw BridgeError.HostStreamError ∧
    ((nextImpl (failsAt 2) writerFive 3 jvmLive).2.calls.drop jvmLive.calls.length).length = 2 ∧
    delivered ((nextImpl (failsAt 2) writerFive 3 jvmLive).2.calls.drop jvmLive.calls.length)
      = [1, 2] ∧
    (finalizeImpl (failsAt 2) writerFive 3 jvmLive).1
      = Outcome.threw BridgeError.HostStreamError ∧
    (finalizeImpl (failsAt 2) writerFive 3 jvmLive).2.2.calls
      = [(HostCall.write true [1, 2] 0 2, false), (HostCall.write true [3, 4] 0 2, true)] :=
  have h := nextImpl_write_failure_aborts (failsAt 2) writerFive 3 jvmLive 2
    (HostCall.write true [3, 4] 0 2) (by decide) (by decide)
  ⟨h.1, h.2.1, (h.2.2.2.2.2.1 chunkTwo (by decide) (by decide) rfl (by decide)).trans (by decide),
    h.2.2.2.2.2.2.1, h.2.2.2.2.2.2.2.1.trans (by decide)⟩

/-- With capacity 0 an iteration leaves `bytes_write` where it was. -/
theorem nextImplLoop_zero_capacity_stuck :
    ∀ (fuel : Nat) (jvm : Jvm) (a : JByteArray), jvm.buffer = some a →
      (nextImplLoop faultFree writerZeroCapacity fuel 0 jvm).1 = Outcome.outOfFuel := by
  intro fuel
  induction fuel with
  | zero =>
    intro jvm a _
    rw [nextImplLoop]
    rfl
  | succ fuel ih =>
    intro jvm a ha
    obtain ⟨a1, _, _, hstep⟩ := nextImplLoop_step faultFree writerZeroCapacity fuel 0 jvm a
      (by decide) (by decide) ha (by simp [writerZeroCapacity])
    rw [hstep]
    simp only [faultFree, Bool.false_eq_true, if_false]
    exact ih _ a1 rfl

/-- C7, as stated, fails at capacity 0: with one byte buffered the loop never
terminates (no amount of fuel lets it return or throw), and an iteration does
not decrease the count of bytes still to deliver: it stays 1. -/
theorem nextImpl_zero_capacity_counterexample :
    (¬ ∃ fuel, (nextImpl faultFree writerZeroCapacity fuel jvmLive).1 ≠ Outcome.outOfFuel) ∧
    subSize writerZeroCapacity.offset 0 = 1 ∧
    subSize writerZeroCapacity.offset
      (addJint 0 (toJint (min (subSize writerZeroCapacity.offset 0)
        writerZeroCapacity.buffer_size))) = 1 := by
  refine ⟨?_, by decide, by decide⟩
  rintro ⟨fuel, h⟩
  exact h (nextImplLoop_zero_capacity_stuck fuel jvmLive chunkTwo rfl)

/-- C7, amended: for every buffered length `n` and every transfer-chunk capacity
`c ≥ 1` (the transfer chunk holding `c` bytes), against a host that raises no
fault the drain loop terminates within `ceil(n / c)` iterations with the buffer
fully drained, and every iteration strictly decreases the count of bytes still
to deliver: from any `bytes_write < n` the update of line 20 leaves fewer
bytes. -/
theorem nextImpl_terminates_positive_capacity (w : WriteBufferFromJavaOutputStream) (jvm : Jvm)
    (a : JByteArray) (fuel : Nat)
    (hc1 : 1 ≤ w.buffer_size)
    (ha : jvm.buffer = some a) (hcap : w.buffer_size ≤ a.data.length)
    (hfuel : ceilDiv w.offset w.buffer_size ≤ fuel) :
    (nextImpl faultFree w fuel jvm).1 = Outcome.returned ∧
    passed ((nextImpl faultFree w fuel jvm).2.calls.drop jvm.calls.length) = w.working_buffer ∧
    (∀ bytes_write, bytes_write < w.offset →
      subSize w.offset
          (addJint bytes_write (toJint (min (subSize w.offset bytes_write) w.buffer_size)))
        < subSize w.offset bytes_write) := by
  have hc2 : w.buffer_size ≤ JINT_MAX := Nat.le_trans hcap a.length_le
  obtain ⟨a1, new, hrun, hdrop, hpass, _⟩ := nextImpl_faultFree w jvm a fuel hc1
    (Nat.le_trans (Nat.min_le_right _ _) hc2) ha (Nat.le_trans (Nat.min_le_right _ _) hcap) hfuel
  rw [hdrop]
  refine ⟨by rw [hrun], hpass, ?_⟩
  intro bw hbw
  have hoff : w.offset < SIZE_MOD := w.offset_lt
  have hsub : subSize w.offset bw = w.offset - bw := subSize_of_le (Nat.le_of_lt hbw) hoff
  have hle : min (w.offset - bw) w.buffer_size ≤ w.offset - bw := Nat.min_le_left _ _
  have hpos : 1 ≤ min (w.offset - bw) w.buffer_size := by rw [Nat.le_min]; omega
  rw [hsub, toJint_of_le (Nat.le_trans (Nat.min_le_right _ _) hc2),
    addJint_of_lt (by omega), subSize_of_le (by omega) hoff]
  omega

/-- Instance of the amended C7: five bytes, chunk of two bytes. -/
theorem nextImpl_terminates_positive_capacity_witness :
    (nextImpl faultFree writerFive 3 jvmLive).1 = Outcome.returned ∧
    passed ((nextImpl faultFree writerFive 3 jvmLive).2.calls.drop jvmLive.calls.length)
      = [1, 2, 3, 4, 5] ∧
    (∀ bytes_write, bytes_write < writerFive.offset →
      subSize writerFive.offset
          (addJint bytes_write
            (toJint (min (subSize writerFive.offset bytes_write) writerFive.buffer_size)))
        < subSize writerFive.offset bytes_write) :=
  nextImpl_terminates_positive_capacity writerFive jvmLive chunkTwo 3 (by decide) rfl (by decide)
    (by decide)

end local_engine

/-! # Theorems, part 2: the type-string utilities -/

namespace gluten

theorem startsWith_singleton (c x : Char) (xs : List Char) :
    startsWith [c] (x :: xs) = (c == x) := by
  simp [startsWith]

theorem findAux_char_append (c : Char) (pre rest : List Char) (i : Nat) (h : c ∉ pre) :
    findAux [c] (pre ++ c :: rest) i = i + pre.length := by
  induction pre generalizing i with
  | nil => simp [findAux, startsWith]
  | cons x xs ih =>
    have hx : c ≠ x := fun e => h (by rw [e]; exact List.mem_cons_self _ _)
    have hxs : c ∉ xs := fun e => h (List.mem_cons_of_mem _ e)
    simp only [List.cons_append, findAux, startsWith_singleton]
    have : (c == x) = false := by simpa using hx
    rw [this]
    simp only [Bool.false_eq_true, if_false]
    have := ih (i + 1) hxs
    simp only [List.length_cons]
    show findAux [c] (xs ++ c :: rest) (i + 1) = i + (xs.length + 1)
    omega

theorem find_first_of_append (c : Char) (pre rest : List Char) (h : c ∉ pre) :
    find_first_of (pre ++ c :: rest) c = pre.length := by
  unfold find_first_of find
  rw [findAux_char_append c pre rest 0 h]
  omega

theorem not_mem_of_digits {c : Char} (hc : isDigit c = false) {p : List Char}
    (hp : ∀ d ∈ p, isDigit d = true) : c ∉ p := by
  intro h
  have := hp c h
  rw [hc] at this
  cases this

theorem isSpace_of_isDigit {c : Char} (h : isDigit c = true) : isSpace c = false := by
  unfold isDigit at h
  unfold isSpace
  simp only [Bool.and_eq_true, decide_eq_true_eq] at h
  simp only [Bool.or_eq_false_iff, decide_eq_false_iff_not, Bool.and_eq_false_imp,
    decide_eq_true_eq]
  omega

theorem takeWhile_all {p : List Char} (hp : ∀ d ∈ p, isDigit d = true) :
    p.takeWhile isDigit = p := by
  induction p with
  | nil => rfl
  | cons x xs ih =>
    rw [List.takeWhile_cons, hp x (List.mem_cons_self _ _)]
    simp only [if_true]
    rw [ih (fun d hd => hp d (List.mem_cons_of_mem _ hd))]

/-- On a nonempty run of digits whose value is an `int`, `stoi` returns the value. -/
theorem stoi_digits (p : List Char) (hne : p ≠ []) (hp : ∀ d ∈ p, isDigit d = true)
    (hv : digitsValue p ≤ 2 ^ 31 - 1) : stoi p = Except.ok (digitsValue p : Int) := by
  cases p with
  | nil => exact absurd rfl hne
  | cons x xs =>
    have hx : isDigit x = true := hp x (List.mem_cons_self _ _)
    have hsp : isSpace x = false := isSpace_of_isDigit hx
    have hminus : x ≠ '-' := by
      intro e; rw [e] at hx; revert hx; decide
    have hplus : x ≠ '+' := by
      intro e; rw [e] at hx; revert hx; decide
    unfold stoi
    simp only [List.dropWhile_cons, hsp, Bool.false_eq_true, if_false, if_neg hminus,
      if_neg hplus, takeWhile_all hp]
    simp only [List.isEmpty_cons, Bool.false_eq_true, if_false]
    have h1 : ¬ (((digitsValue (x :: xs) : Nat) : Int) < -(2 ^ 31) ∨
        (2 ^ 31 - 1 : Int) < ((digitsValue (x :: xs) : Nat) : Int)) := by
      omega
    rw [if_neg h1]

theorem substr_middle (pre mid post : List Char) :
    substr (pre ++ mid ++ post) pre.length mid.length = Except.ok mid := by
  unfold substr
  have h : ¬ (pre ++ mid ++ post).length < pre.length := by
    simp only [List.length_append]; omega
  rw [if_neg h, List.append_assoc, List.drop_left, List.take_left]

/-- The function `getDecimalType` once the three positions and the two numerals
are known. -/
theorem getDecimalType_of_positions (d : List Char) (a b c : Nat) (ps ss : List Char)
    (pv sv : Int)
    (h1 : find_first_of d '<' = a) (h2 : find_first_of d ',' = b)
    (h3 : find_first_of d '>' = c)
    (hs1 : substr d (sizeAdd a 1) (sizeSub (sizeSub b a) 1) = Except.ok ps)
    (ht1 : stoi ps = Except.ok pv)
    (hs2 : substr d (sizeAdd b 1) (sizeSub (sizeSub c b) 1) = Except.ok ss)
    (ht2 : stoi ss = Except.ok sv) :
    getDecimalType d = Except.ok (TypePtr.DECIMAL pv sv) := by
  unfold getDecimalType
  simp only [h1, h2, h3, hs1, ht1, hs2, ht2]


/-- C10: for every decimal type string `dec<p,s>` in which `p` and `s` are
nonempty runs of decimal digits whose values fit in a 32-bit signed integer,
`getDecimalType` returns `DECIMAL(precision, scale)` with precision the value of
`p` and scale the value of `s`. -/
theorem getDecimalType_documented_form (p s : List Char)
    (hpne : p ≠ []) (hsne : s ≠ [])
    (hp : ∀ d ∈ p, isDigit d = true) (hs : ∀ d ∈ s, isDigit d = true)
    (hpv : digitsValue p ≤ 2 ^ 31 - 1) (hsv : digitsValue s ≤ 2 ^ 31 - 1)
    (hlen : (decimalTypeString p s).length < 2 ^ 64) :
    getDecimalType (decimalTypeString p s)
      = Except.ok (TypePtr.DECIMAL (digitsValue p : Int) (digitsValue s : Int)) := by
  have hl : 4 + p.length + 1 + s.length + 1 < 2 ^ 64 := by
    have : (decimalTypeString p s).length = 4 + p.length + 1 + s.length + 1 := by
      simp only [decimalTypeString, List.length_append, List.length_cons, List.length_nil]
    omega
  have h1 : find_first_of (decimalTypeString p s) '<' = 3 := by
    have e : decimalTypeString p s = ['d', 'e', 'c'] ++ '<' :: (p ++ [','] ++ s ++ ['>']) := by
      simp [decimalTypeString]
    rw [e, find_first_of_append _ _ _ (by decide)]
    rfl
  have h2 : find_first_of (decimalTypeString p s) ',' = 4 + p.length := by
    have e : decimalTypeString p s = (['d', 'e', 'c', '<'] ++ p) ++ ',' :: (s ++ ['>']) := by
      simp [decimalTypeString]
    have hn : ',' ∉ ['d', 'e', 'c', '<'] ++ p := by
      rw [List.mem_append]
      rintro (h | h)
      · revert h; decide
      · exact not_mem_of_digits (by decide) hp h
    rw [e, find_first_of_append _ _ _ hn]
    simp only [List.length_append, List.length_cons, List.length_nil]
  have h3 : find_first_of (decimalTypeString p s) '>' = 4 + p.length + 1 + s.length := by
    have e : decimalTypeString p s = (['d', 'e', 'c', '<'] ++ p ++ [','] ++ s) ++ '>' :: [] := by
      simp [decimalTypeString]
    have hn : '>' ∉ ['d', 'e', 'c', '<'] ++ p ++ [','] ++ s := by
      simp only [List.mem_append]
      rintro (((h | h) | h) | h)
      · revert h; decide
      · exact not_mem_of_digits (by decide) hp h
      · revert h; decide
      · exact not_mem_of_digits (by decide) hs h
    rw [e, find_first_of_append _ _ _ hn]
    simp only [List.length_append, List.length_cons, List.length_nil]
  have e1 : sizeAdd 3 1 = 4 := by unfold sizeAdd; omega
  have e2 : sizeSub (sizeSub (4 + p.length) 3) 1 = p.length := by
    unfold sizeSub; omega
  have e3 : sizeAdd (4 + p.length) 1 = 4 + p.length + 1 := by
    unfold sizeAdd; omega
  have e4 : sizeSub (sizeSub (4 + p.length + 1 + s.length) (4 + p.length)) 1 = s.length := by
    unfold sizeSub; omega
  have s1 : substr (decimalTypeString p s) 4 p.length = Except.ok p := by
    have := substr_middle ['d', 'e', 'c', '<'] p ([','] ++ s ++ ['>'])
    have e : decimalTypeString p s = ['d', 'e', 'c', '<'] ++ p ++ ([','] ++ s ++ ['>']) := by
      simp [decimalTypeString]
    rw [e]
    exact this
  have s2 : substr (decimalTypeString p s) (4 + p.length + 1) s.length = Except.ok s := by
    have := substr_middle (['d', 'e', 'c', '<'] ++ p ++ [',']) s ['>']
    have hlen2 : (['d', 'e', 'c', '<'] ++ p ++ [',']).length = 4 + p.length + 1 := by
      simp only [List.length_append, List.length_cons, List.length_nil]
    rw [hlen2] at this
    exact this
  have t1 := stoi_digits p hpne hp hpv
  have t2 := stoi_digits s hsne hs hsv
  exact getDecimalType_of_positions _ 3 (4 + p.length) (4 + p.length + 1 + s.length) p s _ _
    h1 h2 h3 ((congrArg₂ (substr (decimalTypeString p s)) e1 e2).trans s1) t1
    ((congrArg₂ (substr (decimalTypeString p s)) e3 e4).trans s2) t2

/-- Instance of C10: `dec<10,2>`. -/
theorem getDecimalType_documented_form_witness :
    getDecimalType ['d', 'e', 'c', '<', '1', '0', ',', '2', '>']
      = Except.ok (TypePtr.DECIMAL 10 2) :=
  getDecimalType_documented_form ['1', '0'] ['2'] (by decide) (by decide) (by decide)
    (by decide) (by decide) (by decide) (by decide)


/-- C9 at the struct string `struct<dec<10,2>>`, a struct of the documented form
whose only (and last) child is a decimal: after the decimal has been converted,
`getRowType` goes on to convert the empty text that is left, so the result is
either the failure of that conversion or a row with two children. It is never
the row with the single child `DECIMAL(10, 2)`. -/
theorem getRowType_trailing_decimal (conv : List Char → Except Failure TypePtr) (fuel : Nat) :
    getRowType conv (fuel + 1)
        ['s', 't', 'r', 'u', 'c', 't', '<', 'd', 'e', 'c', '<', '1', '0', ',', '2', '>', '>']
      = (match conv [] with
        | Except.error e => some (Except.error e)
        | Except.ok t => some (Except.ok (TypePtr.ROW [[], []] [TypePtr.DECIMAL 10 2, t]))) ∧
    getRowType conv (fuel + 1)
        ['s', 't', 'r', 'u', 'c', 't', '<', 'd', 'e', 'c', '<', '1', '0', ',', '2', '>', '>']
      ≠ some (Except.ok (TypePtr.ROW [[]] [TypePtr.DECIMAL 10 2])) := by
  have h : getRowType conv (fuel + 1)
        ['s', 't', 'r', 'u', 'c', 't', '<', 'd', 'e', 'c', '<', '1', '0', ',', '2', '>', '>']
      = (match conv [] with
        | Except.error e => some (Except.error e)
        | Except.ok t => some (Except.ok (TypePtr.ROW [[], []] [TypePtr.DECIMAL 10 2, t]))) := by
    cases fuel <;> rfl
  refine ⟨h, ?_⟩
  rw [h]
  cases conv [] with
  | error e => simp
  | ok t => simp

/-- The same defect with a flat type before the decimal: in
`struct<i32,dec<10,2>>` the empty text is converted as a third child. -/
theorem getRowType_flat_then_last_decimal (conv : List Char → Except Failure TypePtr)
    (fuel : Nat) :
    getRowType conv (fuel + 2)
        ['s', 't', 'r', 'u', 'c', 't', '<', 'i', '3', '2', ',', 'd', 'e', 'c', '<', '1', '0', ',',
          '2', '>', '>']
      = (match conv ['i', '3', '2'] with
        | Except.error e => some (Except.error e)
        | Except.ok t1 =>
          match conv [] with
          | Except.error e => some (Except.error e)
          | Except.ok t => some (Except.ok
              (TypePtr.ROW [[], [], []] [t1, TypePtr.DECIMAL 10 2, t]))) := by
  cases fuel <;> rfl

/-- A decimal that is not last is handled: `struct<dec<10,2>,i32>`. -/
theorem getRowType_leading_decimal (conv : List Char → Except Failure TypePtr) (fuel : Nat) :
    getRowType conv (fuel + 1)
        ['s', 't', 'r', 'u', 'c', 't', '<', 'd', 'e', 'c', '<', '1', '0', ',', '2', '>', ',', 'i',
          '3', '2', '>']
      = (match conv ['i', '3', '2'] with
        | Except.error e => some (Except.error e)
        | Except.ok t => some (Except.ok (TypePtr.ROW [[], []] [TypePtr.DECIMAL 10 2, t]))) := by
  cases fuel <;> rfl

theorem findLastAux_append_last (c : Char) (pre : List Char) (i best : Nat) :
    findLastAux c (pre ++ [c]) i best = i + pre.length := by
  induction pre generalizing i best with
  | nil => simp [findLastAux]
  | cons x xs ih =>
    show findLastAux c (xs ++ [c]) (i + 1) (if x = c then i else best) = i + (xs.length + 1)
    rw [ih]
    omega

/-- One iteration of the first loop at a character that is not a delimiter at
equal counts, the counters being below `INT_MAX`. -/
theorem angleBracketNumEqualPos_skip (ch : Char) (rest : List Char) (i l r : Nat)
    (hi : i < INT_MAX) (hl : l < INT_MAX) (hr : r < INT_MAX)
    (hskip : ¬ (ch = ',' ∧
      (if ch = '>' then r + 1 else r) = (if ch = '<' then l + 1 else l))) :
    angleBracketNumEqualPos (ch :: rest) i l r
      = angleBracketNumEqualPos rest (i + 1) (if ch = '<' then l + 1 else l)
          (if ch = '>' then r + 1 else r) := by
  have hguard : ¬ ((ch = '<' ∧ INT_MAX ≤ l) ∨ (ch = '>' ∧ INT_MAX ≤ r) ∨ INT_MAX ≤ i) := by
    rintro (h | h | h)
    · exact absurd h.2 (Nat.not_le_of_lt hl)
    · exact absurd h.2 (Nat.not_le_of_lt hr)
    · exact absurd h (Nat.not_le_of_lt hi)
  rw [angleBracketNumEqualPos, if_neg hguard]
  simp only [if_neg hskip]
  cases angleBracketNumEqualPos rest (i + 1) (if ch = '<' then l + 1 else l)
    (if ch = '>' then r + 1 else r) <;> rfl

/-- One iteration of the first loop at a comma met with equal counts. -/
theorem angleBracketNumEqualPos_comma (rest : List Char) (i l : Nat) (hi : i < INT_MAX) :
    angleBracketNumEqualPos (',' :: rest) i l l
      = match angleBracketNumEqualPos rest (i + 1) l l with
        | Except.error e => Except.error e
        | Except.ok positions => Except.ok (i :: positions) := by
  have hguard : ¬ (((',' : Char) = '<' ∧ INT_MAX ≤ l) ∨ ((',' : Char) = '>' ∧ INT_MAX ≤ l)
      ∨ INT_MAX ≤ i) := by
    rintro (h | h | h)
    · exact absurd h.1 (by decide)
    · exact absurd h.1 (by decide)
    · exact absurd h (Nat.not_le_of_lt hi)
  have h1 : ¬ ((',' : Char) = '<') := by decide
  have h2 : ¬ ((',' : Char) = '>') := by decide
  rw [angleBracketNumEqualPos, if_neg hguard]
  simp only [if_neg h1, if_neg h2, and_self, if_true]

/-- Scanning a balanced field in front of `rest` records no position and leaves
the two bracket counters equal, as long as the loop counter stays an `int`. -/
theorem angleBracketNumEqualPos_field (t : List Char) :
    ∀ (depth l r : Nat) (rest : List Char) (i : Nat), nestedFrom t depth = true →
      l = r + depth → l ≤ i → i + t.length ≤ INT_MAX →
      ∃ l1, l1 ≤ i + t.length ∧
        angleBracketNumEqualPos (t ++ rest) i l r
          = angleBracketNumEqualPos rest (i + t.length) l1 l1 := by
  induction t with
  | nil =>
    intro depth l r rest i h hl hli _
    have hd : depth = 0 := by simpa [nestedFrom] using h
    subst hd
    simp only [Nat.add_zero] at hl
    subst hl
    exact ⟨l, by simpa using hli, by simp⟩
  | cons c cs ih =>
    intro depth l r rest i h hl hli hbound
    have hlen : i + (c :: cs).length = i + 1 + cs.length := by
      simp only [List.length_cons]; omega
    rw [hlen] at hbound ⊢
    have hi : i < INT_MAX := by omega
    have hlt : l < INT_MAX := by omega
    have hrt : r < INT_MAX := by omega
    by_cases h1 : c = '<'
    · subst h1
      have hn : nestedFrom cs (depth + 1) = true := by simpa [nestedFrom] using h
      obtain ⟨l1, hb1, hl1⟩ := ih (depth + 1) (l + 1) r rest (i + 1) hn (by omega) (by omega)
        hbound
      refine ⟨l1, hb1, ?_⟩
      rw [← hl1]
      have := angleBracketNumEqualPos_skip '<' (cs ++ rest) i l r hi hlt hrt
        (by rintro ⟨hc, _⟩; revert hc; decide)
      simpa using this
    · by_cases h2 : c = '>'
      · subst h2
        have hn : 0 < depth ∧ nestedFrom cs (depth - 1) = true := by
          simpa [nestedFrom] using h
        obtain ⟨l1, hb1, hl1⟩ := ih (depth - 1) l (r + 1) rest (i + 1) hn.2 (by omega)
          (by omega) hbound
        refine ⟨l1, hb1, ?_⟩
        rw [← hl1]
        have := angleBracketNumEqualPos_skip '>' (cs ++ rest) i l r hi hlt hrt
          (by rintro ⟨hc, _⟩; revert hc; decide)
        simpa using this
      · by_cases h3 : c = ','
        · subst h3
          have hn : 0 < depth ∧ nestedFrom cs depth = true := by
            simpa [nestedFrom] using h
          obtain ⟨l1, hb1, hl1⟩ := ih depth l r rest (i + 1) hn.2 hl (by omega) hbound
          refine ⟨l1, hb1, ?_⟩
          rw [← hl1]
          have := angleBracketNumEqualPos_skip ',' (cs ++ rest) i l r hi hlt hrt
            (by
              rintro ⟨_, hc⟩
              simp only [if_neg h1, if_neg h2] at hc
              omega)
          simpa using this
        · have hn : nestedFrom cs depth = true := by
            simpa [nestedFrom, h1, h2, h3] using h
          obtain ⟨l1, hb1, hl1⟩ := ih depth l r rest (i + 1) hn hl (by omega) hbound
          refine ⟨l1, hb1, ?_⟩
          rw [← hl1]
          have := angleBracketNumEqualPos_skip c (cs ++ rest) i l r hi hlt hrt
            (fun hc => h3 hc.1)
          simpa [h1, h2] using this

theorem intToSize_sub {a b : Nat} (hab : a ≤ b) (hb : b - a < 2 ^ 64) :
    intToSize ((b : Int) - (a : Int)) = b - a := by
  unfold intToSize
  omega

theorem substr_after (pre mid post : List Char) (hmid : mid.length < 2 ^ 64) :
    substr (pre ++ (mid ++ post)) pre.length
        (intToSize (((pre.length + mid.length : Nat) : Int) - (pre.length : Int)))
      = Except.ok mid := by
  have := substr_middle pre mid post
  rw [List.append_assoc] at this
  rw [intToSize_sub (Nat.le_add_right _ _) (by omega), Nat.add_sub_cancel_left]
  exact this

/-- The two loops of `getTypesFromCompoundName` on the joined fields, after any
text `pre` already consumed. -/
theorem splitTypes_joinFields (ts : List (List Char)) :
    ∀ (pre : List Char) (l : Nat), ts ≠ [] → (∀ t ∈ ts, balancedField t = true) →
      l ≤ pre.length → pre.length + (joinFields ts).length ≤ INT_MAX →
      ∃ positions,
        angleBracketNumEqualPos (joinFields ts) pre.length l l = Except.ok positions ∧
        splitTypes (pre ++ joinFields ts) positions pre.length = Except.ok ts := by
  induction ts with
  | nil => intro _ _ h; exact absurd rfl h
  | cons t rest ih =>
    intro pre l _ hall hl hbound
    have ht : nestedFrom t 0 = true := hall t (List.mem_cons_self _ _)
    have hmax : INT_MAX = 2 ^ 31 - 1 := rfl
    cases rest with
    | nil =>
      simp only [joinFields] at hbound ⊢
      obtain ⟨l1, _, hl1⟩ := angleBracketNumEqualPos_field t 0 l l [] pre.length ht rfl hl
        hbound
      rw [List.append_nil] at hl1
      refine ⟨[], ?_, ?_⟩
      · rw [hl1]; rfl
      · simp [splitTypes]
    | cons t2 more =>
      have hrest : ∀ x ∈ t2 :: more, balancedField x = true :=
        fun x hx => hall x (List.mem_cons_of_mem _ hx)
      have hjoin : joinFields (t :: t2 :: more) = t ++ ',' :: joinFields (t2 :: more) := rfl
      have hjlen : (joinFields (t :: t2 :: more)).length
          = t.length + 1 + (joinFields (t2 :: more)).length := by
        rw [hjoin]
        simp only [List.length_append, List.length_cons]
        omega
      rw [hjlen] at hbound
      obtain ⟨l1, hb1, hl1⟩ := angleBracketNumEqualPos_field t 0 l l
        (',' :: joinFields (t2 :: more)) pre.length ht rfl hl (by omega)
      have hlen2 : (pre ++ t ++ [',']).length = pre.length + t.length + 1 := by
        simp only [List.length_append, List.length_cons, List.length_nil]
      obtain ⟨positions, hpos, hsplit⟩ := ih (pre ++ t ++ [',']) l1 (by simp) hrest
        (by rw [hlen2]; omega) (by rw [hlen2]; omega)
      rw [hlen2] at hpos hsplit
      refine ⟨(pre.length + t.length) :: positions, ?_, ?_⟩
      · rw [hjoin, hl1, angleBracketNumEqualPos_comma _ _ _ (by omega), hpos]
      · have hstr2 : pre ++ joinFields (t :: t2 :: more)
            = (pre ++ t ++ [',']) ++ joinFields (t2 :: more) := by
          rw [hjoin]; simp
        have hguard : ¬ INT_MAX ≤ pre.length + t.length := by omega
        rw [splitTypes]
        rw [hjoin, substr_after pre t (',' :: joinFields (t2 :: more)) (by omega), ← hjoin]
        simp only [if_neg hguard]
        rw [hstr2, hsplit]

/-- The function `getTypesFromCompoundName` once the two bracket positions and
the text between them are known. -/
theorem getTypesFromCompoundName_of_positions (compoundName typesName : List Char)
    (a b : Nat) (h1 : find compoundName ['<'] = a) (h2 : rfind compoundName '>' = b)
    (hs : substr compoundName (sizeAdd a 1) (sizeSub (sizeSub b a) 1) = Except.ok typesName) :
    getTypesFromCompoundName compoundName
      = match angleBracketNumEqualPos typesName 0 0 0 with
        | Except.error e => Except.error e
        | Except.ok positions => splitTypes typesName positions 0 := by
  unfold getTypesFromCompoundName
  simp only [h1, h2, hs]

/-- C8: for every compound name `N<t1,...,tn>` with `n ≥ 1`, where `N` contains
no angle bracket and every `ti` has balanced angle brackets and no comma outside
its own brackets, `getTypesFromCompoundName` returns exactly `[t1, ..., tn]`.
The name has fewer than `2 ^ 31` characters, so that the `int` counters of the
function do not overflow; of `N` only the absence of `<` is used. -/
theorem getTypesFromCompoundName_splits_top_level (name : List Char) (ts : List (List Char))
    (hne : ts ≠ []) (hl : '<' ∉ name) (hts : ∀ t ∈ ts, balancedField t = true)
    (hlen : (compoundNameOf name ts).length < 2 ^ 31) :
    getTypesFromCompoundName (compoundNameOf name ts) = Except.ok ts := by
  have hsz : name.length + 1 + (joinFields ts).length + 1 < 2 ^ 31 := by
    have : (compoundNameOf name ts).length = name.length + 1 + (joinFields ts).length + 1 := by
      simp only [compoundNameOf, List.length_append, List.length_cons, List.length_nil]
    omega
  have h1 : find (compoundNameOf name ts) ['<'] = name.length := by
    have e : compoundNameOf name ts = name ++ '<' :: (joinFields ts ++ ['>']) := by
      simp [compoundNameOf]
    rw [e]
    exact find_first_of_append '<' name _ hl
  have h2 : rfind (compoundNameOf name ts) '>' = name.length + 1 + (joinFields ts).length := by
    unfold rfind find_last_of compoundNameOf
    rw [findLastAux_append_last]
    simp only [List.length_append, List.length_cons, List.length_nil]
    omega
  have e1 : sizeAdd name.length 1 = name.length + 1 := by
    unfold sizeAdd; omega
  have e2 : sizeSub (sizeSub (name.length + 1 + (joinFields ts).length) name.length) 1
      = (joinFields ts).length := by
    unfold sizeSub; omega
  have hsub : substr (compoundNameOf name ts) (name.length + 1) (joinFields ts).length
      = Except.ok (joinFields ts) := by
    have := substr_middle (name ++ ['<']) (joinFields ts) ['>']
    have hlen2 : (name ++ ['<']).length = name.length + 1 := by
      simp only [List.length_append, List.length_cons, List.length_nil]
    rw [hlen2] at this
    exact this
  have hmax : INT_MAX = 2 ^ 31 - 1 := rfl
  obtain ⟨positions, hpos, hsplit⟩ := splitTypes_joinFields ts [] 0 hne hts (Nat.le_refl _)
    (by simp only [List.length_nil]; omega)
  rw [List.nil_append] at hsplit
  rw [getTypesFromCompoundName_of_positions _ _ _ _ h1 h2
    ((congrArg₂ (substr (compoundNameOf name ts)) e1 e2).trans hsub)]
  have hpos0 : angleBracketNumEqualPos (joinFields ts) 0 0 0 = Except.ok positions := hpos
  rw [hpos0]
  exact hsplit

/-- Instance of C8: the three comment examples of the function. -/
theorem getTypesFromCompoundName_splits_top_level_witness :
    getTypesFromCompoundName "ROW<BIGINT,ROW<DOUBLE,BIGINT>,ROW<DOUBLE,BIGINT>>".toList
      = Except.ok ["BIGINT".toList, "ROW<DOUBLE,BIGINT>".toList, "ROW<DOUBLE,BIGINT>".toList] :=
  getTypesFromCompoundName_splits_top_level "ROW".toList
    ["BIGINT".toList, "ROW<DOUBLE,BIGINT>".toList, "ROW<DOUBLE,BIGINT>".toList]
    (by decide) (by decide) (by decide) (by decide)

theorem getTypesFromCompoundName_array_example :
    getTypesFromCompoundName "ARRAY<BIGINT>".toList = Except.ok ["BIGINT".toList] := by rfl

theorem getTypesFromCompoundName_map_example :
    getTypesFromCompoundName "MAP<BIGINT,DOUBLE>".toList
      = Except.ok ["BIGINT".toList, "DOUBLE".toList] := by rfl

/-- One call of `toVeloxType` on a name of kind ARRAY. -/
theorem toVeloxType_array_step (velox : VeloxLibrary) (asLowerCase : Bool) (fuel : Nat)
    (typeName : List Char) (fieldTypes : List (List Char))
    (hne : typeName.isEmpty = false)
    (htype : getNameBeforeDelimiter typeName ['<'] = ['A', 'R', 'R', 'A', 'Y'])
    (hdate : velox.dateName ≠ ['A', 'R', 'R', 'A', 'Y'])
    (hkind : velox.mapNameToTypeKind ['A', 'R', 'R', 'A', 'Y'] = Except.ok TypeKind.ARRAY)
    (hfields : getTypesFromCompoundName typeName = Except.ok fieldTypes) :
    toVeloxType velox asLowerCase (fuel + 1) typeName =
      match fieldTypes with
      | [elementType] =>
        match toVeloxType velox asLowerCase fuel elementType with
        | none => none
        | some (Except.error e) => some (Except.error e)
        | some (Except.ok t) => some (Except.ok (TypePtr.ARRAY t))
      | _ => some (Except.error Failure.veloxCheck) := by
  rw [toVeloxType]
  simp only [hne, htype, hkind, hfields, if_neg hdate]
  rcases fieldTypes with _ | ⟨a, _ | ⟨b, rest⟩⟩ <;> simp


/-- One call of `toVeloxType` on a name of kind MAP. -/
theorem toVeloxType_map_step (velox : VeloxLibrary) (asLowerCase : Bool) (fuel : Nat)
    (typeName : List Char) (fieldTypes : List (List Char))
    (hne : typeName.isEmpty = false)
    (htype : getNameBeforeDelimiter typeName ['<'] = ['M', 'A', 'P'])
    (hdate : velox.dateName ≠ ['M', 'A', 'P'])
    (hkind : velox.mapNameToTypeKind ['M', 'A', 'P'] = Except.ok TypeKind.MAP)
    (hfields : getTypesFromCompoundName typeName = Except.ok fieldTypes) :
    toVeloxType velox asLowerCase (fuel + 1) typeName =
      match fieldTypes with
      | [key, value] =>
        match toVeloxType velox asLowerCase fuel key with
        | none => none
        | some (Except.error e) => some (Except.error e)
        | some (Except.ok keyType) =>
          match toVeloxType velox asLowerCase fuel value with
          | none => none
          | some (Except.error e) => some (Except.error e)
          | some (Except.ok valueType) => some (Except.ok (TypePtr.MAP keyType valueType))
      | _ => some (Except.error Failure.veloxCheck) := by
  rw [toVeloxType]
  simp only [hne, htype, hkind, hfields, if_neg hdate]
  rcases fieldTypes with _ | ⟨a, _ | ⟨b, _ | ⟨c, rest⟩⟩⟩ <;> simp

/-- One call of `toVeloxType` on a name of kind ROW. -/
theorem toVeloxType_row_step (velox : VeloxLibrary) (asLowerCase : Bool) (fuel : Nat)
    (typeName : List Char) (fieldTypes : List (List Char))
    (hne : typeName.isEmpty = false)
    (htype : getNameBeforeDelimiter typeName ['<'] = ['R', 'O', 'W'])
    (hdate : velox.dateName ≠ ['R', 'O', 'W'])
    (hkind : velox.mapNameToTypeKind ['R', 'O', 'W'] = Except.ok TypeKind.ROW)
    (hfields : getTypesFromCompoundName typeName = Except.ok fieldTypes)
    (hsome : fieldTypes.isEmpty = false) :
    toVeloxType velox asLowerCase (fuel + 1) typeName =
      match rowFields (toVeloxType velox asLowerCase fuel) asLowerCase fieldTypes 0 with
      | none => none
      | some (Except.error e) => some (Except.error e)
      | some (Except.ok (names, types)) => some (Except.ok (TypePtr.ROW names types)) := by
  rw [toVeloxType]
  simp only [hne, htype, hkind, hfields, if_neg hdate, hsome]
  simp

theorem getNameBeforeDelimiter_nil (d : List Char) (hd : d.isEmpty = false) :
    getNameBeforeDelimiter [] d = [] := by
  unfold getNameBeforeDelimiter find
  simp [findAux, hd]

/-- C11: `toVeloxType` enforces the arity of compound types. It fails with a
check error, and so returns no type, for the empty type name, for every name
whose text before the first `<` is `ARRAY` and whose bracketed text splits (by
`getTypesFromCompoundName`) into a number of fields other than one, and for
every name whose text before the first `<` is `MAP` and whose bracketed text
splits into a number of fields other than two. The Velox library is any one in
which `ARRAY` and `MAP` name the kinds of those names and are not the name that
`DATE` prints. -/
theorem toVeloxType_enforces_arity (velox : VeloxLibrary) (asLowerCase : Bool) (fuel : Nat)
    (hdateA : velox.dateName ≠ ['A', 'R', 'R', 'A', 'Y'])
    (hdateM : velox.dateName ≠ ['M', 'A', 'P'])
    (hkindA : velox.mapNameToTypeKind ['A', 'R', 'R', 'A', 'Y'] = Except.ok TypeKind.ARRAY)
    (hkindM : velox.mapNameToTypeKind ['M', 'A', 'P'] = Except.ok TypeKind.MAP) :
    toVeloxType velox asLowerCase (fuel + 1) [] = some (Except.error Failure.veloxCheck) ∧
    (∀ (typeName : List Char) (fieldTypes : List (List Char)),
      getNameBeforeDelimiter typeName ['<'] = ['A', 'R', 'R', 'A', 'Y'] →
      getTypesFromCompoundName typeName = Except.ok fieldTypes →
      fieldTypes.length ≠ 1 →
      toVeloxType velox asLowerCase (fuel + 1) typeName
        = some (Except.error Failure.veloxCheck)) ∧
    (∀ (typeName : List Char) (fieldTypes : List (List Char)),
      getNameBeforeDelimiter typeName ['<'] = ['M', 'A', 'P'] →
      getTypesFromCompoundName typeName = Except.ok fieldTypes →
      fieldTypes.length ≠ 2 →
      toVeloxType velox asLowerCase (fuel + 1) typeName
        = some (Except.error Failure.veloxCheck)) := by
  refine ⟨?_, ?_, ?_⟩
  · rw [toVeloxType]
    simp
  · intro typeName fieldTypes htype hfields hlen
    have hne : typeName.isEmpty = false := by
      cases typeName with
      | nil =>
        rw [getNameBeforeDelimiter_nil _ (by decide)] at htype
        cases htype
      | cons c cs => rfl
    rw [toVeloxType_array_step velox asLowerCase fuel typeName fieldTypes hne htype hdateA hkindA
      hfields]
    rcases fieldTypes with _ | ⟨a, _ | ⟨b, rest⟩⟩
    · rfl
    · exact absurd rfl hlen
    · rfl
  · intro typeName fieldTypes htype hfields hlen
    have hne : typeName.isEmpty = false := by
      cases typeName with
      | nil =>
        rw [getNameBeforeDelimiter_nil _ (by decide)] at htype
        cases htype
      | cons c cs => rfl
    rw [toVeloxType_map_step velox asLowerCase fuel typeName fieldTypes hne htype hdateM hkindM
      hfields]
    rcases fieldTypes with _ | ⟨a, _ | ⟨b, _ | ⟨c, rest⟩⟩⟩
    · rfl
    · rfl
    · exact absurd rfl hlen
    · rfl

/-- Instance of C11 with the Velox kind names: the empty name, `ARRAY<BIGINT,DOUBLE>`
(two fields) and `MAP<BIGINT>` (one field) fail with a check error. -/
theorem toVeloxType_enforces_arity_witness :
    toVeloxType veloxLibrary false 1 [] = some (Except.error Failure.veloxCheck) ∧
    toVeloxType veloxLibrary false 1 "ARRAY<BIGINT,DOUBLE>".toList
      = some (Except.error Failure.veloxCheck) ∧
    toVeloxType veloxLibrary false 1 "MAP<BIGINT>".toList
      = some (Except.error Failure.veloxCheck) :=
  have h := toVeloxType_enforces_arity veloxLibrary false 0 (by decide) (by decide) rfl rfl
  ⟨h.1,
    h.2.1 "ARRAY<BIGINT,DOUBLE>".toList ["BIGINT".toList, "DOUBLE".toList] rfl rfl (by decide),
    h.2.2 "MAP<BIGINT>".toList ["BIGINT".toList] rfl rfl (by decide)⟩


/-- On a library that knows the kind `ARRAY`, the bare name `ARRAY` is converted
by a recursive call on the same text, so no depth of recursion suffices. -/
theorem toVeloxType_bare_array_loops (velox : VeloxLibrary) (asLowerCase : Bool)
    (hdate : velox.dateName ≠ ['A', 'R', 'R', 'A', 'Y'])
    (hkind : velox.mapNameToTypeKind ['A', 'R', 'R', 'A', 'Y'] = Except.ok TypeKind.ARRAY) :
    ∀ fuel, toVeloxType velox asLowerCase fuel ['A', 'R', 'R', 'A', 'Y'] = none := by
  intro fuel
  induction fuel with
  | zero => rfl
  | succ fuel ih =>
    rw [toVeloxType_array_step velox asLowerCase fuel ['A', 'R', 'R', 'A', 'Y']
      [['A', 'R', 'R', 'A', 'Y']] rfl rfl hdate hkind rfl]
    simp only [ih]

/-- The same for the bare name `ROW`. -/
theorem toVeloxType_bare_row_loops (velox : VeloxLibrary) (asLowerCase : Bool)
    (hdate : velox.dateName ≠ ['R', 'O', 'W'])
    (hkind : velox.mapNameToTypeKind ['R', 'O', 'W'] = Except.ok TypeKind.ROW) :
    ∀ fuel, toVeloxType velox asLowerCase fuel ['R', 'O', 'W'] = none := by
  intro fuel
  induction fuel with
  | zero => rfl
  | succ fuel ih =>
    rw [toVeloxType_row_step velox asLowerCase fuel ['R', 'O', 'W'] [['R', 'O', 'W']] rfl rfl
      hdate hkind rfl rfl]
    have hpos : find_last_of ['R', 'O', 'W'] ':' = npos := rfl
    simp only [rowFields, hpos, if_true, ih]

/-- C13 at the bare names `ARRAY` and `ROW`: `getTypesFromCompoundName` returns
the name itself as the only field, which is not shorter than the name, and
`toVeloxType` calls itself on it again; whatever depth of recursion is allowed,
the call does not return. (The bare name `MAP` fails the arity check.) -/
theorem toVeloxType_bare_names_do_not_terminate :
    getTypesFromCompoundName "ARRAY".toList = Except.ok ["ARRAY".toList] ∧
    getTypesFromCompoundName "ROW".toList = Except.ok ["ROW".toList] ∧
    ¬ ("ARRAY".toList.length < "ARRAY".toList.length) ∧
    (∀ (asLowerCase : Bool) (fuel : Nat),
      toVeloxType veloxLibrary asLowerCase fuel "ARRAY".toList = none) ∧
    (∀ (asLowerCase : Bool) (fuel : Nat),
      toVeloxType veloxLibrary asLowerCase fuel "ROW".toList = none) ∧
    (∀ (asLowerCase : Bool) (fuel : Nat),
      toVeloxType veloxLibrary asLowerCase (fuel + 1) "MAP".toList
        = some (Except.error Failure.veloxCheck)) := by
  refine ⟨rfl, rfl, by decide, ?_, ?_, ?_⟩
  · intro b fuel
    exact toVeloxType_bare_array_loops veloxLibrary b (by decide) rfl fuel
  · intro b fuel
    exact toVeloxType_bare_row_loops veloxLibrary b (by decide) rfl fuel
  · intro b fuel
    rw [toVeloxType_map_step veloxLibrary b fuel "MAP".toList ["MAP".toList] rfl rfl (by decide)
      rfl rfl]

/-- C14 at `ROW<ROW<BIGINT:a>>`, a row whose only field is an unnamed row with a
named inner field: the field has no `:` outside its angle brackets, but
`find_last_of(':')` finds the inner one, so the field is split into the type
`ROW<BIGINT` and the name `a>`. The result is a row with the field `a>` of type
`ROW(col_0 BIGINT)`, not the field `col_0` of type `ROW(a BIGINT)`. -/
theorem toVeloxType_nested_row_split_at_inner_colon (fuel : Nat) :
    toVeloxType veloxLibrary false (fuel + 3) "ROW<ROW<BIGINT:a>>".toList
      = some (Except.ok (TypePtr.ROW ["a>".toList]
          [TypePtr.ROW ["col_0".toList] [TypePtr.BIGINT]])) ∧
    toVeloxType veloxLibrary false (fuel + 3) "ROW<ROW<BIGINT:a>>".toList
      ≠ some (Except.ok (TypePtr.ROW ["col_0".toList]
          [TypePtr.ROW ["a".toList] [TypePtr.BIGINT]])) ∧
    find_last_of "ROW<BIGINT:a>".toList ':' = 10 := by
  have h : toVeloxType veloxLibrary false (fuel + 3) "ROW<ROW<BIGINT:a>>".toList
      = some (Except.ok (TypePtr.ROW ["a>".toList]
          [TypePtr.ROW ["col_0".toList] [TypePtr.BIGINT]])) := rfl
  refine ⟨h, ?_, rfl⟩
  rw [h]
  intro hc
  injection hc with hc
  injection hc with hc
  injection hc with hn _
  revert hn
  decide

theorem findAux_char_bound (c : Char) :
    ∀ (s : List Char) (i : Nat), findAux [c] s i = npos ∨ findAux [c] s i < i + s.length := by
  intro s
  induction s with
  | nil => intro i; left; rfl
  | cons x xs ih =>
    intro i
    rw [findAux]
    by_cases h : startsWith [c] (x :: xs) = true
    · right
      rw [if_pos h]
      simp only [List.length_cons]
      omega
    · rw [if_neg h]
      rcases ih (i + 1) with h1 | h1
      · left; exact h1
      · right
        simp only [List.length_cons]
        omega

theorem splitTypes_length_le (typesName : List Char) :
    ∀ (positions : List Nat) (startPos : Nat) (fields : List (List Char)),
      splitTypes typesName positions startPos = Except.ok fields →
      ∀ f ∈ fields, f.length ≤ typesName.length := by
  intro positions
  induction positions with
  | nil =>
    intro startPos fields h f hf
    simp only [splitTypes, Except.ok.injEq] at h
    rw [← h] at hf
    simp only [List.mem_singleton] at hf
    rw [hf, List.length_drop]
    omega
  | cons d more ih =>
    intro startPos fields h f hf
    rw [splitTypes] at h
    by_cases hpos : typesName.length < startPos
    · simp only [substr, if_pos hpos] at h
      cases h
    · simp only [substr, if_neg hpos] at h
      by_cases hguard : INT_MAX ≤ d
      · simp only [if_pos hguard] at h
        cases h
      · simp only [if_neg hguard] at h
        cases hrest : splitTypes typesName more (d + 1) with
        | error e =>
          rw [hrest] at h
          cases h
        | ok rest =>
          rw [hrest] at h
          simp only [Except.ok.injEq] at h
          rw [← h] at hf
          rcases List.mem_cons.mp hf with hf1 | hf1
          · rw [hf1, List.length_take, List.length_drop]
            omega
          · exact ih (d + 1) rest hrest f hf1

/-- Where the recursion of `toVeloxType` does shrink its argument: when the name
contains a `<`, every field that `getTypesFromCompoundName` returns is strictly
shorter than the name. -/
theorem getTypesFromCompoundName_fields_shorter (name : List Char) (fields : List (List Char))
    (hlen : name.length < 2 ^ 64) (hfound : find name ['<'] ≠ npos)
    (h : getTypesFromCompoundName name = Except.ok fields) :
    ∀ f ∈ fields, f.length < name.length := by
  have hb : find name ['<'] < name.length := by
    rcases findAux_char_bound '<' name 0 with h1 | h1
    · exact absurd h1 hfound
    · simpa [find] using h1
  have hadd : sizeAdd (find name ['<']) 1 = find name ['<'] + 1 := by
    unfold sizeAdd; omega
  generalize hcount : sizeSub (sizeSub (rfind name '>') (find name ['<'])) 1 = count at h
  have hsub : substr name (find name ['<'] + 1) count
      = Except.ok ((name.drop (find name ['<'] + 1)).take count) := by
    unfold substr
    rw [if_neg (by omega)]
  have hrun := getTypesFromCompoundName_of_positions name _ (find name ['<']) (rfind name '>')
    rfl rfl (by rw [hadd, hcount]; exact hsub)
  rw [hrun] at h
  intro f hf
  cases hscan : angleBracketNumEqualPos
      ((name.drop (find name ['<'] + 1)).take count) 0 0 0 with
  | error e =>
    rw [hscan] at h
    cases h
  | ok positions =>
    rw [hscan] at h
    have hle := splitTypes_length_le _ _ _ _ h f hf
    rw [List.length_take, List.length_drop] at hle
    omega

end gluten

/-! # Theorems, part 3: the framed block stream -/

namespace local_engine

theorem ceilDiv_le_self {n c : Nat} (hc : 1 ≤ c) : ceilDiv n c ≤ n := by
  rcases Nat.eq_zero_or_pos n with h0 | hpos
  · rw [h0, ceilDiv_zero hc]
  · have hb := (ceilDiv_bounds (n := n) hc).2 hpos
    have hmul : (ceilDiv n c - 1) * 1 ≤ (ceilDiv n c - 1) * c := Nat.mul_le_mul_left _ hc
    omega

theorem delivered_append (xs ys : List (HostCall × Bool)) :
    delivered (xs ++ ys) = delivered xs ++ delivered ys := by
  simp [delivered, passed]

/-- A fault-free `next`: the buffer is handed to the host and left empty. -/
theorem next_faultFree (w : WriteBufferFromJavaOutputStream) (jvm : Jvm) (a : JByteArray)
    (fuel : Nat) (hc1 : 1 ≤ w.buffer_size) (ha : jvm.buffer = some a)
    (hcap : w.buffer_size ≤ a.data.length) (hfuel : w.offset ≤ fuel) :
    ∃ (w1 : WriteBufferFromJavaOutputStream) (a1 : JByteArray) (new : List (HostCall × Bool)),
      next faultFree w fuel jvm
        = (Outcome.returned, w1, Jvm.mk jvm.output_stream (some a1) (jvm.calls ++ new)) ∧
      w1.working_buffer = [] ∧ w1.buffer_size = w.buffer_size ∧
      a1.data.length = a.data.length ∧
      (∀ x ∈ new, x.1.isWrite = true ∧ x.2 = false) ∧
      delivered new = w.working_buffer := by
  by_cases h0 : w.offset = 0
  · have hnil : w.working_buffer = [] := List.length_eq_zero.mp h0
    refine ⟨w, a, [], ?_, hnil, rfl, rfl, by simp, by rw [hnil]; rfl⟩
    unfold next
    rw [if_pos h0]
    cases jvm
    simp_all
  · have hm : min w.offset w.buffer_size ≤ JINT_MAX :=
      Nat.le_trans (Nat.min_le_right _ _) (Nat.le_trans hcap a.length_le)
    obtain ⟨a1, new, hrun, hlen, hpass, hshape⟩ := nextImplLoop_faultFree w hc1 hm fuel 0 jvm a
      (Nat.zero_le _) ha (Nat.le_trans (Nat.min_le_right _ _) hcap)
      (Nat.le_trans (ceilDiv_le_self hc1) (by simpa using hfuel))
    have hflags := flags_of_expectedCalls hshape
    refine ⟨WriteBufferFromJavaOutputStream.mk [] w.buffer_size (by decide) w.buffer_size_lt,
      a1, new, ?_, rfl, rfl, hlen, hflags, ?_⟩
    · unfold next nextImpl
      rw [if_neg h0, hrun]
    · rw [delivered_eq_passed (fun x hx => (hflags x hx).2), hpass]
      rfl

/-- A fault-free `finalizeImpl`: the buffer is handed to the host, then one flush
is issued. -/
theorem finalizeImpl_faultFree (w : WriteBufferFromJavaOutputStream) (jvm : Jvm)
    (a : JByteArray) (fuel : Nat) (hc1 : 1 ≤ w.buffer_size) (ha : jvm.buffer = some a)
    (hcap : w.buffer_size ≤ a.data.length) (hfuel : w.offset ≤ fuel) :
    ∃ new : List (HostCall × Bool),
      (finalizeImpl faultFree w fuel jvm).1 = Outcome.returned ∧
      (finalizeImpl faultFree w fuel jvm).2.2.calls
        = jvm.calls ++ new ++ [(HostCall.flush jvm.output_stream, false)] ∧
      delivered new = w.working_buffer := by
  obtain ⟨w1, a1, new, hnext, _, _, _, _, hdel⟩ := next_faultFree w jvm a fuel hc1 ha hcap hfuel
  refine ⟨new, ?_, ?_, hdel⟩
  · unfold finalizeImpl
    rw [hnext]
    simp [safeCallVoidMethod, faultFree]
  · unfold finalizeImpl
    rw [hnext]
    simp [safeCallVoidMethod, faultFree]

theorem writeByte_faultFree (bw : BufferedWriter) (jvm : Jvm) (c fuel byte : Nat)
    (hready : WriterReady bw jvm c fuel) :
    ∃ (bw1 : BufferedWriter) (jvm1 : Jvm) (new : List (HostCall × Bool)),
      writeByte faultFree fuel byte bw jvm = (Outcome.returned, bw1, jvm1) ∧
      WriterReady bw1 jvm1 c fuel ∧ bw1.capacity = bw.capacity ∧
      jvm1.output_stream = jvm.output_stream ∧
      jvm1.calls = jvm.calls ++ new ∧
      delivered new ++ bw1.adapter.working_buffer = bw.adapter.working_buffer ++ [byte] := by
  obtain ⟨hsize, hc1, hcap1, hfuel, a, ha, hchunk⟩ := hready
  by_cases h : bw.adapter.offset < bw.capacity
  · refine ⟨bw.store byte h, jvm, [], ?_, ⟨hsize, hc1, hcap1, hfuel, a, ha, hchunk⟩, rfl, rfl,
      by simp, ?_⟩
    · unfold writeByte
      rw [dif_pos h]
    · simp [BufferedWriter.store, delivered_nil]
  · obtain ⟨w1, a1, new, hnext, hnil, hsz, hlen, _, hdel⟩ :=
      next_faultFree bw.adapter jvm a fuel (by rw [hsize]; exact hc1) ha
        (by rw [hsize]; exact hchunk) (Nat.le_trans bw.offset_le hfuel)
    have h1 : w1.offset < bw.capacity := by
      show w1.working_buffer.length < bw.capacity
      rw [hnil]
      exact hcap1
    refine ⟨BufferedWriter.store (BufferedWriter.mk w1 bw.capacity bw.capacity_lt
        (Nat.le_of_lt h1)) byte h1,
      Jvm.mk jvm.output_stream (some a1) (jvm.calls ++ new), new, ?_,
      ⟨by simp [BufferedWriter.store, hsz, hsize], hc1, hcap1, hfuel, a1, rfl,
        by rw [hlen]; exact hchunk⟩, rfl, rfl, rfl, ?_⟩
    · unfold writeByte
      rw [dif_neg h, hnext]
      simp only [dif_pos h1]
    · simp [BufferedWriter.store, hnil, hdel]

theorem writeBytes_faultFree (c fuel : Nat) :
    ∀ (bytes : List Nat) (bw : BufferedWriter) (jvm : Jvm), WriterReady bw jvm c fuel →
      ∃ (bw1 : BufferedWriter) (jvm1 : Jvm) (new : List (HostCall × Bool)),
        writeBytes faultFree fuel bytes bw jvm = (Outcome.returned, bw1, jvm1) ∧
        WriterReady bw1 jvm1 c fuel ∧ bw1.capacity = bw.capacity ∧
        jvm1.output_stream = jvm.output_stream ∧
        jvm1.calls = jvm.calls ++ new ∧
        delivered new ++ bw1.adapter.working_buffer = bw.adapter.working_buffer ++ bytes := by
  intro bytes
  induction bytes with
  | nil =>
    intro bw jvm hready
    exact ⟨bw, jvm, [], rfl, hready, rfl, rfl, by simp, by simp [delivered_nil]⟩
  | cons byte more ih =>
    intro bw jvm hready
    obtain ⟨bw1, jvm1, new1, hstep, hready1, hcap1, hos1, hcalls1, hcons1⟩ :=
      writeByte_faultFree bw jvm c fuel byte hready
    obtain ⟨bw2, jvm2, new2, hrest, hready2, hcap2, hos2, hcalls2, hcons2⟩ :=
      ih bw1 jvm1 hready1
    refine ⟨bw2, jvm2, new1 ++ new2, ?_, hready2, by rw [hcap2, hcap1], by rw [hos2, hos1],
      by rw [hcalls2, hcalls1, List.append_assoc], ?_⟩
    · rw [writeBytes, hstep]
      exact hrest
    · rw [delivered_append, List.append_assoc, hcons2, ← List.append_assoc, hcons1]
      simp

/-- The write path, fault-free: everything written reaches the host sink, in
order, and nothing else. -/
theorem sendBlocks_faultFree (codec : HeaderCodec) (blocks : List Block) (bw : BufferedWriter)
    (jvm : Jvm) (c fuel : Nat) (hready : WriterReady bw jvm c fuel)
    (hfresh : bw.adapter.working_buffer = []) :
    (sendBlocks faultFree fuel codec blocks bw jvm).1 = Outcome.returned ∧
    delivered ((sendBlocks faultFree fuel codec blocks bw jvm).2.calls.drop jvm.calls.length)
      = encodeStream codec blocks := by
  obtain ⟨bw1, jvm1, new1, hwrite, hready1, _, hos1, hcalls1, hcons1⟩ :=
    writeBytes_faultFree c fuel (encodeStream codec blocks) bw jvm hready
  obtain ⟨hsize, hc1, _, hfuel, a, ha, hchunk⟩ := hready1
  obtain ⟨new2, hout, hcalls2, hdel2⟩ := finalizeImpl_faultFree bw1.adapter jvm1 a fuel
    (by rw [hsize]; exact hc1) ha (by rw [hsize]; exact hchunk)
    (Nat.le_trans bw1.offset_le hfuel)
  unfold sendBlocks
  rw [hwrite]
  refine ⟨hout, ?_⟩
  simp only [hcalls2, hcalls1, List.append_assoc, List.drop_left]
  rw [delivered_append, delivered_append, hdel2]
  rw [hfresh, List.nil_append] at hcons1
  rw [← hcons1]
  simp [delivered, passed, HostCall.chunk]

theorem readByte_cons (r : ReadBufferFromJavaInputStream) (b : Nat) (rest : List Nat)
    (hs : r.Sound) (hp : r.pending = b :: rest) :
    ∃ r1 : ReadBufferFromJavaInputStream,
      r.readByte = (some b, r1) ∧ r1.Sound ∧ r1.pending = rest := by
  obtain ⟨hsize, hfin⟩ := hs
  rcases r with ⟨src, size, avail, fin⟩
  simp only [ReadBufferFromJavaInputStream.pending] at hp
  simp only at hsize hfin
  cases avail with
  | cons x xs =>
    simp only [List.cons_append, List.cons.injEq] at hp
    obtain ⟨hx, hrest⟩ := hp
    subst hx
    refine ⟨ReadBufferFromJavaInputStream.mk src size xs fin, rfl, ⟨hsize, ?_⟩, hrest⟩
    intro hf
    have := (hfin hf).1
    cases this
  | nil =>
    simp only [List.nil_append] at hp
    have hnf : fin = false := by
      cases fin with
      | false => rfl
      | true =>
        have := (hfin rfl).2
        rw [this] at hp
        cases hp
    subst hnf
    have hn : 1 ≤ min (max 1 (src.grant src.callsMade)) size :=
      Nat.le_min.mpr ⟨Nat.le_max_left _ _, hsize⟩
    obtain ⟨n, hn1⟩ : ∃ n, min (max 1 (src.grant src.callsMade)) size = n + 1 :=
      ⟨min (max 1 (src.grant src.callsMade)) size - 1, by omega⟩
    have hfill : (ReadBufferFromJavaInputStream.mk src size [] false).fill
        = (true, ReadBufferFromJavaInputStream.mk
            (HostSource.mk (rest.drop n) src.grant (src.callsMade + 1)) size
            (b :: rest.take n) false) := by
      simp only [ReadBufferFromJavaInputStream.fill, hostRead, hn1, hp, List.take_succ_cons,
        List.drop_succ_cons]
      simp
    refine ⟨ReadBufferFromJavaInputStream.mk
        (HostSource.mk (rest.drop n) src.grant (src.callsMade + 1)) size (rest.take n) false,
      ?_, ⟨hsize, by simp⟩, ?_⟩
    · simp only [ReadBufferFromJavaInputStream.readByte, hfill]
    · simp [ReadBufferFromJavaInputStream.pending]

theorem readFrameHeader_encoded (codec : HeaderCodec) (hcodec : codec.SelfDescribing)
    (h : FrameHeader) (rest : List Nat) :
    ∀ (back text : List Nat) (fuel : Nat) (r : ReadBufferFromJavaInputStream),
      codec.encode h = text ++ back → back.length ≤ fuel → r.Sound →
      r.pending = back ++ rest →
      ∃ r1 : ReadBufferFromJavaInputStream,
        readFrameHeader codec fuel text r = (some (Except.ok h), r1) ∧ r1.Sound ∧
        r1.pending = rest := by
  intro back
  induction back with
  | nil =>
    intro text fuel r henc _ hs hp
    have hc : codec.complete text = some h := by
      rw [List.append_nil] at henc
      rw [← henc]
      exact hcodec.1 h
    refine ⟨r, ?_, hs, by simpa using hp⟩
    cases fuel <;> simp only [readFrameHeader, hc]
  | cons b back ih =>
    intro text fuel r henc hfuel hs hp
    have hc : codec.complete text = none := hcodec.2 h text (b :: back) henc (by simp)
    obtain ⟨fuel1, hf1⟩ : ∃ fuel1, fuel = fuel1 + 1 := ⟨fuel - 1, by
      simp only [List.length_cons] at hfuel; omega⟩
    subst hf1
    obtain ⟨r1, hread, hs1, hp1⟩ := readByte_cons r b (back ++ rest) hs (by simpa using hp)
    obtain ⟨r2, hrec, hs2, hp2⟩ := ih (text ++ [b]) fuel1 r1 (by simp [henc])
      (by simp only [List.length_cons] at hfuel; omega) hs1 hp1
    refine ⟨r2, ?_, hs2, hp2⟩
    rw [readFrameHeader]
    simp only [hc, hread]
    exact hrec

theorem readPayload_exact (rest : List Nat) :
    ∀ (payload : List Nat) (r : ReadBufferFromJavaInputStream), r.Sound →
      r.pending = payload ++ rest →
      ∃ r1 : ReadBufferFromJavaInputStream,
        readPayload payload.length r = (Except.ok payload, r1) ∧ r1.Sound ∧
        r1.pending = rest := by
  intro payload
  induction payload with
  | nil =>
    intro r hs hp
    exact ⟨r, rfl, hs, by simpa using hp⟩
  | cons b more ih =>
    intro r hs hp
    obtain ⟨r1, hread, hs1, hp1⟩ := readByte_cons r b (more ++ rest) hs (by simpa using hp)
    obtain ⟨r2, hrec, hs2, hp2⟩ := ih r1 hs1 hp1
    refine ⟨r2, ?_, hs2, hp2⟩
    simp only [List.length_cons, readPayload, hread, hrec]

theorem read_block (codec : HeaderCodec) (hcodec : codec.SelfDescribing) (fuel : Nat)
    (s : ShuffleReader) (b : Block) (rest : List Nat)
    (hex : s.exhausted = false) (hs : s.input.Sound)
    (hp : s.input.pending = encodeBlock codec b ++ rest)
    (hschema : s.header = none ∨ s.header = some b.cols)
    (hcols : b.cols = 0 → b.rows = 0)
    (hfuel : (codec.encode (FrameHeader.dataFrame b.rows b.cols b.payload.length)).length
      ≤ fuel) :
    ∃ s1 : ShuffleReader,
      s.read codec fuel = (ReadResult.block b, s1) ∧ s1.exhausted = false ∧
      s1.header = some b.cols ∧ s1.input.Sound ∧ s1.input.pending = rest := by
  obtain ⟨r1, hhead, hs1, hp1⟩ := readFrameHeader_encoded codec hcodec
    (FrameHeader.dataFrame b.rows b.cols b.payload.length) (b.payload ++ rest)
    (codec.encode (FrameHeader.dataFrame b.rows b.cols b.payload.length)) [] fuel s.input
    (by simp) hfuel hs (by rw [hp, encodeBlock, List.append_assoc])
  obtain ⟨r2, hpay, hs2, hp2⟩ := readPayload_exact rest b.payload r1 hs1 hp1
  have hok : ¬ (s.header.isSome ∧ s.header ≠ some b.cols) := by
    rintro ⟨h1, h2⟩
    rcases hschema with h | h
    · rw [h] at h1; cases h1
    · exact h2 h
  have hok2 : ¬ (b.cols = 0 ∧ b.rows ≠ 0) := fun h => h.2 (hcols h.1)
  refine ⟨ShuffleReader.mk r2 (some b.cols) false, ?_, rfl, rfl, hs2, hp2⟩
  unfold ShuffleReader.read
  simp only [hex, Bool.false_eq_true, if_false, hhead, if_neg hok, if_neg hok2, hpay]

theorem read_end (codec : HeaderCodec) (hcodec : codec.SelfDescribing) (fuel : Nat)
    (s : ShuffleReader) (rest : List Nat)
    (hex : s.exhausted = false) (hs : s.input.Sound)
    (hp : s.input.pending = codec.encode FrameHeader.endOfStream ++ rest)
    (hfuel : (codec.encode FrameHeader.endOfStream).length ≤ fuel) :
    ∃ s1 : ShuffleReader,
      s.read codec fuel = (ReadResult.endMarker, s1) ∧ s1.exhausted = true := by
  obtain ⟨r1, hhead, _, _⟩ := readFrameHeader_encoded codec hcodec FrameHeader.endOfStream rest
    (codec.encode FrameHeader.endOfStream) [] fuel s.input (by simp) hfuel hs hp
  refine ⟨ShuffleReader.mk r1 s.header true, ?_, rfl⟩
  unfold ShuffleReader.read
  simp only [hex, Bool.false_eq_true, if_false, hhead]

theorem readMany_exhausted (codec : HeaderCodec) (fuel : Nat) :
    ∀ (count : Nat) (s : ShuffleReader), s.exhausted = true →
      readMany codec fuel count s = List.replicate count ReadResult.endMarker := by
  intro count
  induction count with
  | zero => intro s _; rfl
  | succ count ih =>
    intro s hex
    have hread : s.read codec fuel = (ReadResult.endMarker, s) := by
      unfold ShuffleReader.read
      rw [if_pos hex]
    rw [readMany, hread, ih s hex]
    rfl

theorem encodeStream_cons (codec : HeaderCodec) (b : Block) (blocks : List Block) :
    encodeStream codec (b :: blocks) = encodeBlock codec b ++ encodeStream codec blocks := by
  simp [encodeStream]

/-- Decoding a framed stream gives back the blocks, then the end marker for
ever. -/
theorem readMany_encodeStream (codec : HeaderCodec) (hcodec : codec.SelfDescribing)
    (fuel cols extra : Nat) :
    ∀ (blocks : List Block) (s : ShuffleReader),
      s.exhausted = false → s.input.Sound →
      s.input.pending = encodeStream codec blocks →
      (s.header = none ∨ s.header = some cols) →
      (∀ b ∈ blocks, b.cols = cols ∧ (b.cols = 0 → b.rows = 0)) →
      (encodeStream codec blocks).length ≤ fuel →
      readMany codec fuel (blocks.length + 1 + extra) s
        = blocks.map ReadResult.block ++ List.replicate (extra + 1) ReadResult.endMarker := by
  intro blocks
  induction blocks with
  | nil =>
    intro s hex hs hp _ _ hfuel
    obtain ⟨s1, hread, hex1⟩ := read_end codec hcodec fuel s [] hex hs
      (by simpa [encodeStream] using hp) (by simpa [encodeStream] using hfuel)
    have hcount : ([] : List Block).length + 1 + extra = extra + 1 := by
      simp only [List.length_nil]; omega
    rw [hcount, readMany, hread]
    simp only [List.map_nil, List.nil_append, List.replicate_succ]
    rw [readMany_exhausted codec fuel extra s1 hex1]
  | cons b more ih =>
    intro s hex hs hp hschema hall hfuel
    have hb := hall b (List.mem_cons_self _ _)
    rw [encodeStream_cons] at hp hfuel
    have hlen : (codec.encode (FrameHeader.dataFrame b.rows b.cols b.payload.length)).length
        ≤ fuel := by
      simp only [encodeBlock, List.length_append] at hfuel
      omega
    obtain ⟨s1, hread, hex1, hhdr1, hs1, hp1⟩ := read_block codec hcodec fuel s b
      (encodeStream codec more) hex hs hp (by rw [hb.1]; exact hschema) hb.2 hlen
    have hrest := ih s1 hex1 hs1 hp1 (Or.inr (by rw [hhdr1, hb.1]))
      (fun x hx => hall x (List.mem_cons_of_mem _ hx))
      (by simp only [List.length_append] at hfuel; omega)
    have hcount : (b :: more).length + 1 + extra = (more.length + 1 + extra) + 1 := by
      simp only [List.length_cons]; omega
    rw [hcount, readMany, hread]
    simp only [List.map_cons, List.cons_append]
    rw [hrest]

/-- C12, amended: round trip. For every header layout that is self-describing,
every `N ≥ 0` and every sequence of `N` blocks that share one column count and
among which no block has rows but no column, on hosts that raise no fault: the
frame writer and the write adapter (fresh, any native buffer capacity of at
least one byte, any transfer-chunk capacity `c` with `1 ≤ c ≤ 2^31 - 1` held by
the transfer chunk) put on the wire exactly the framed stream, and the read
adapter (any buffer capacity of at least one byte, any pattern of partial host
reads) and `ShuffleReader::read` decode from it the identical blocks (row count,
column count, payload bytes) in order, followed by the end marker at call
`N + 1` and at every later call; with `N = 0` the first read returns the end
marker. -/
theorem shuffle_round_trip (codec : HeaderCodec) (hcodec : codec.SelfDescribing)
    (blocks : List Block) (cols : Nat)
    (hschema : ∀ b ∈ blocks, b.cols = cols ∧ (b.cols = 0 → b.rows = 0))
    (bw : BufferedWriter) (jvm : Jvm) (a : JByteArray) (writeFuel : Nat)
    (hfresh : bw.adapter.working_buffer = [])
    (hchunk1 : 1 ≤ bw.adapter.buffer_size) (hjint : bw.adapter.buffer_size ≤ JINT_MAX)
    (hcap1 : 1 ≤ bw.capacity)
    (ha : jvm.buffer = some a) (hchunk : bw.adapter.buffer_size ≤ a.data.length)
    (hwfuel : bw.capacity ≤ writeFuel)
    (grant : Nat → Nat) (buffer_size readFuel : Nat) (hsize : 1 ≤ buffer_size)
    (hrfuel : (encodeStream codec blocks).length ≤ readFuel) :
    (sendBlocks faultFree writeFuel codec blocks bw jvm).1 = Outcome.returned ∧
    delivered ((sendBlocks faultFree writeFuel codec blocks bw jvm).2.calls.drop
      jvm.calls.length) = encodeStream codec blocks ∧
    ∀ extra : Nat,
      readMany codec readFuel (blocks.length + 1 + extra)
          (receiverOn
            (delivered ((sendBlocks faultFree writeFuel codec blocks bw jvm).2.calls.drop
              jvm.calls.length))
            grant buffer_size)
        = blocks.map ReadResult.block ++ List.replicate (extra + 1) ReadResult.endMarker := by
  have _ := hjint
  obtain ⟨hout, hwire⟩ := sendBlocks_faultFree codec blocks bw jvm bw.adapter.buffer_size
    writeFuel ⟨rfl, hchunk1, hcap1, hwfuel, a, ha, hchunk⟩ hfresh
  refine ⟨hout, hwire, ?_⟩
  intro extra
  rw [hwire]
  exact readMany_encodeStream codec hcodec readFuel cols extra blocks
    (receiverOn (encodeStream codec blocks) grant buffer_size) rfl
    ⟨hsize, fun h => by cases h⟩ (by simp [receiverOn, ReadBufferFromJavaInputStream.pending])
    (Or.inl rfl) hschema hrfuel

theorem plainCodec_selfDescribing : plainCodec.SelfDescribing := by
  refine ⟨?_, ?_⟩
  · intro h
    cases h <;> rfl
  · intro h front back henc hback
    cases h with
    | endOfStream =>
      have henc1 : [0] = front ++ back := henc
      rcases front with _ | ⟨x, _ | ⟨y, t⟩⟩
      · rfl
      · simp at henc1
        exact absurd henc1.2 hback
      · simp at henc1
    | dataFrame rows cols len =>
      have henc1 : [1, rows, cols, len] = front ++ back := henc
      rcases front with _ | ⟨x1, _ | ⟨x2, _ | ⟨x3, _ | ⟨x4, _ | ⟨x5, t⟩⟩⟩⟩⟩
      · rfl
      · simp only [List.cons_append, List.nil_append, List.cons.injEq] at henc1
        rw [← henc1.1]
        rfl
      · simp only [List.cons_append, List.nil_append, List.cons.injEq] at henc1
        rw [← henc1.1]
        rfl
      · simp only [List.cons_append, List.nil_append, List.cons.injEq] at henc1
        rw [← henc1.1]
        rfl
      · simp only [List.cons_append, List.nil_append, List.cons.injEq] at henc1
        exact absurd henc1.2.2.2.2.symm hback
      · simp at henc1

/-- Instance of the amended C12: the example scenario of the specification,
three blocks of two columns through a native buffer of 16 bytes and a transfer
chunk of 4 bytes, read back through a read buffer of 16 bytes from a host that
returns one, two or three bytes per call: the three blocks, then the end marker
on the fourth call. -/
theorem shuffle_round_trip_witness :
    (sendBlocks faultFree 16 plainCodec exampleBlocks exampleWriter exampleJvm).1
      = Outcome.returned ∧
    readMany plainCodec 24 4
        (receiverOn
          (delivered ((sendBlocks faultFree 16 plainCodec exampleBlocks exampleWriter
            exampleJvm).2.calls.drop exampleJvm.calls.length))
          (fun i => i % 3 + 1) 16)
      = [ReadResult.block (Block.mk 3 2 [11, 12, 13, 14, 15, 16]),
          ReadResult.block (Block.mk 0 2 []),
          ReadResult.block (Block.mk 5 2 [21, 22, 23, 24, 25]),
          ReadResult.endMarker] :=
  have h := shuffle_round_trip plainCodec plainCodec_selfDescribing exampleBlocks 2
    (by decide) exampleWriter exampleJvm (JByteArray.mk [0, 0, 0, 0] (by decide)) 16 rfl
    (by decide) (by decide) (by decide) rfl (by decide) (by decide) (fun i => i % 3 + 1) 16 24
    (by decide) (by decide)
  ⟨h.1, h.2.2 0⟩

/-- C12, as stated for every sequence of blocks, fails on a sequence that is not
one stream. The two blocks of `mixedColumnBlocks` (one column, then two) are
written without fault and the wire holds their framed stream, but the second
read rejects the frame whose column count differs from the first (section 8,
schema consistency) and reports `CorruptStreamError` in place of the second
block, and no end marker follows. The single block of `rowsWithoutColumns` is
rejected at the first read. -/
theorem round_trip_mixed_columns_counterexample :
    (sendBlocks faultFree 16 plainCodec mixedColumnBlocks exampleWriter exampleJvm).1
      = Outcome.returned ∧
    delivered ((sendBlocks faultFree 16 plainCodec mixedColumnBlocks exampleWriter
        exampleJvm).2.calls.drop exampleJvm.calls.length)
      = [1, 1, 1, 1, 5, 1, 1, 2, 1, 6, 0] ∧
    readMany plainCodec 16 3
        (receiverOn
          (delivered ((sendBlocks faultFree 16 plainCodec mixedColumnBlocks exampleWriter
            exampleJvm).2.calls.drop exampleJvm.calls.length))
          (fun _ => 4) 16)
      = [ReadResult.block (Block.mk 1 1 [5]),
          ReadResult.failed BridgeError.CorruptStreamError,
          ReadResult.failed BridgeError.CorruptStreamError] ∧
    readMany plainCodec 16 3
        (receiverOn
          (delivered ((sendBlocks faultFree 16 plainCodec mixedColumnBlocks exampleWriter
            exampleJvm).2.calls.drop exampleJvm.calls.length))
          (fun _ => 4) 16)
      ≠ mixedColumnBlocks.map ReadResult.block ++ [ReadResult.endMarker] ∧
    (sendBlocks faultFree 16 plainCodec rowsWithoutColumns exampleWriter exampleJvm).1
      = Outcome.returned ∧
    readMany plainCodec 16 2
        (receiverOn
          (delivered ((sendBlocks faultFree 16 plainCodec rowsWithoutColumns exampleWriter
            exampleJvm).2.calls.drop exampleJvm.calls.length))
          (fun _ => 4) 16)
      ≠ rowsWithoutColumns.map ReadResult.block ++ [ReadResult.endMarker] := by
  obtain ⟨hout1, hwire1⟩ := sendBlocks_faultFree plainCodec mixedColumnBlocks exampleWriter
    exampleJvm 4 16
    ⟨rfl, by decide, by decide, by decide, JByteArray.mk [0, 0, 0, 0] (by decide), rfl,
      by decide⟩ rfl
  obtain ⟨hout2, hwire2⟩ := sendBlocks_faultFree plainCodec rowsWithoutColumns exampleWriter
    exampleJvm 4 16
    ⟨rfl, by decide, by decide, by decide, JByteArray.mk [0, 0, 0, 0] (by decide), rfl,
      by decide⟩ rfl
  rw [hwire1, hwire2]
  exact ⟨hout1, by decide, by decide, by decide, hout2, by decide⟩

end local_engine
